import Mathlib

/-!
Formal model of the Hungarian-algorithm WASM module of
martijnenco/Image2Beercaps (src/wasm/src/lib.rs), together with proofs of
the behavioural properties claimed by the specification.

Modelling conventions:
* Finite `f64` cost values are modelled as rationals (`ℚ`): every finite
  IEEE-754 double is a rational number, and all properties under analysis
  presuppose finite inputs (arithmetic on small integer examples is exact
  in both systems).
* `f64::INFINITY`, used by the code as the initial value of the `minv`
  tracker and of `delta`, is modelled by `none` in `Option ℚ`
  (`some q` is the finite value `q`).
* Rust slice/`Vec` reads `cost[k]` are modelled with the optional list
  read `l[k]?`; an out-of-bounds read panics in Rust, which the model
  renders as `none`.
* The two `loop`s of `hungarian_core` have no structural termination
  measure, so they are modelled with explicit fuel (`size + 1`); the
  theorems below show this fuel is sufficient, i.e. that the loops of the
  code terminate within `size + 1` iterations.  The situation `delta = ∞`
  (no unvisited column carries a finite tracked value) makes the Rust
  search loop spin forever (`j1` stays `0` while `p[0] = i ≠ 0`), so the
  model returns `none`, its representation of non-termination, there.
-/

variable {α : Type} [LinearOrderedAddCommGroup α]

/-- Comparison of `f64` values where `none` plays `f64::INFINITY`:
`fLt a b` models the Rust comparison `a < b` (a finite value is smaller
than infinity, infinity is smaller than nothing). -/
def fLt : Option α → Option α → Bool
  | some a, some b => decide (a < b)
  | some _, none => true
  | none, _ => false

/-- `fSub x d` models `x - d` for a possibly-infinite `x` and a finite
`d` (`∞ - d = ∞` for IEEE doubles). -/
def fSub (x : Option α) (d : α) : Option α := x.map (fun a => a - d)

/-- One row of the padded square matrix as produced by the parallel
build (the closure passed to `flat_map_iter`, lib.rs lines 30–38):
entry `j` is `cost_matrix[i*m+j]` inside the original `n × m` window and
`0` outside; an out-of-range read of `cost_matrix` panics (`none`). -/
def padRow (costM : List α) (n m size i : ℕ) : Option (List α) :=
  (List.range size).mapM (fun j =>
    if i < n ∧ j < m then costM[i * m + j]? else some 0)

/-- The parallel padded-matrix build (lib.rs lines 26–39): each row is
produced independently and the rows are concatenated in row order
(rayon's indexed `flat_map_iter`/`collect` preserves index order
independently of scheduling, which is the code's referential-transparency
obligation; the mapping from index to value is the pure closure above). -/
def padded_parallel (costM : List α) (n m size : ℕ) : Option (List α) := do
  let rows ← (List.range size).mapM (padRow costM n m size)
  pure rows.flatten

/-- The body of the sequential fill for one row `i` (lib.rs lines 43–49):
writes `cost[i*size+j] = cost_matrix[i*m+j]` for every `j < size` with
`i < n ∧ j < m`, leaving other entries of the buffer untouched. -/
def padSeqRow (costM : List α) (n m size i : ℕ) (buf : List α) : Option (List α) :=
  (List.range size).foldlM (fun b j =>
    if i < n ∧ j < m then
      match costM[i * m + j]? with
      | none => none
      | some c => some (b.set (i * size + j) c)
    else some b) buf

/-- The sequential padded-matrix build (lib.rs lines 40–51): a buffer of
`size * size` zeroes filled by the nested loops. -/
def padded_sequential (costM : List α) (n m size : ℕ) : Option (List α) :=
  (List.range size).foldlM (fun b i => padSeqRow costM n m size i b)
    (List.replicate (size * size) (0 : α))

/-- State of the column scan inside the augmenting-path search: the
per-column minimal-reduced-cost tracker `minv`, the predecessor map
`way`, and the running minimum `delta` with its column `j1`. -/
structure ScanSt (α : Type) where
  minv : ℕ → Option α
  way : ℕ → ℕ
  delta : Option α
  j1 : ℕ

/-- One step `j` of the scan loop (lib.rs lines 82–95): for an unvisited
column `j`, compute the reduced cost `cur = cost[(i0-1)*size+(j-1)] -
u[i0] - v[j]`, lower `minv[j]` (recording `j0` as predecessor) if `cur`
improves it, then fold `minv[j]` into the running minimum `delta`/`j1`. -/
def scanStep (cost : List α) (size i0 j0 : ℕ) (u v : ℕ → α) (used : ℕ → Bool)
    (s : ScanSt α) (j : ℕ) : Option (ScanSt α) :=
  if used j then some s else
    match cost[(i0 - 1) * size + (j - 1)]? with
    | none => none
    | some c =>
      let cur : Option α := some (c - u i0 - v j)
      let s1 : ScanSt α :=
        if fLt cur (s.minv j) then
          { s with minv := Function.update s.minv j cur,
                   way := Function.update s.way j j0 }
        else s
      if fLt (s1.minv j) s1.delta then
        some { s1 with delta := s1.minv j, j1 := j }
      else some s1

/-- The scan loop `for j in 1..=size` (lib.rs lines 82–95). -/
def scanCols (cost : List α) (size i0 j0 : ℕ) (u v : ℕ → α) (used : ℕ → Bool)
    (s : ScanSt α) : Option (ScanSt α) :=
  (List.range' 1 size).foldlM (scanStep cost size i0 j0 u v used) s

/-- State touched by the potential-update loop. -/
structure PotSt (α : Type) where
  u : ℕ → α
  v : ℕ → α
  minv : ℕ → Option α

/-- One step `j` of the potential-update loop (lib.rs lines 98–105):
visited columns shift the potentials (`u[p[j]] += delta`,
`v[j] -= delta`), unvisited columns lower their tracked minimum. -/
def updStep (p : ℕ → ℕ) (used : ℕ → Bool) (d : α) (st : PotSt α) (j : ℕ) : PotSt α :=
  if used j then
    { st with u := Function.update st.u (p j) (st.u (p j) + d),
              v := Function.update st.v j (st.v j - d) }
  else
    { st with minv := Function.update st.minv j (fSub (st.minv j) d) }

/-- The potential-update loop `for j in 0..=size` (lib.rs lines 98–105). -/
def updatePots (size : ℕ) (p : ℕ → ℕ) (used : ℕ → Bool) (d : α) (st : PotSt α) : PotSt α :=
  (List.range (size + 1)).foldl (updStep p used d) st

/-- State of the augmenting-path search loop: potentials, predecessor
map, tracker, visited set, and the current column `j0`. -/
structure InnerSt (α : Type) where
  u : ℕ → α
  v : ℕ → α
  way : ℕ → ℕ
  minv : ℕ → Option α
  used : ℕ → Bool
  j0 : ℕ

/-- The augmenting-path search loop (lib.rs lines 76–112), with fuel.
Each iteration marks `j0` visited, scans the columns from the row
`i0 = p[j0]`, and, when `delta` is finite, shifts the potentials and
advances to `j1`, stopping as soon as the reached column is unmatched.
A `delta` of `∞` makes the Rust loop spin forever, hence `none`. -/
def augment (cost : List α) (size : ℕ) (p : ℕ → ℕ) : ℕ → InnerSt α → Option (InnerSt α)
  | 0, _ => none
  | fuel + 1, st =>
    let used1 := Function.update st.used st.j0 true
    let i0 := p st.j0
    match scanCols cost size i0 st.j0 st.u st.v used1 ⟨st.minv, st.way, none, 0⟩ with
    | none => none
    | some s =>
      match s.delta with
      | none => none
      | some d =>
        let pots := updatePots size p used1 d ⟨st.u, st.v, s.minv⟩
        let st1 : InnerSt α := ⟨pots.u, pots.v, s.way, pots.minv, used1, s.j1⟩
        if p s.j1 = 0 then some st1 else augment cost size p fuel st1

/-- The path-reconstruction loop (lib.rs lines 115–123), with fuel:
walk the recorded predecessors from the terminal column, reassigning
each column on the path to the row held by its predecessor, until the
virtual column `0` is reached. -/
def reconstruct (way : ℕ → ℕ) : ℕ → ℕ → (ℕ → ℕ) → Option (ℕ → ℕ)
  | 0, _, _ => none
  | fuel + 1, j0, p =>
    let j1 := way j0
    let p1 := Function.update p j0 (p j1)
    if j1 = 0 then some p1 else reconstruct way fuel j1 p1

/-- Persistent solver state across outer iterations: the potentials,
the match map `p` (column → matched row, `0` = unmatched), and the
predecessor map `way`. -/
structure SolverSt (α : Type) where
  u : ℕ → α
  v : ℕ → α
  p : ℕ → ℕ
  way : ℕ → ℕ

/-- One outer iteration of `hungarian_core` for row `i` (lib.rs lines
67–124): set `p[0] = i`, run the augmenting-path search from the virtual
column with fresh `minv`/`used`, then reconstruct the path. -/
def solveRow (cost : List α) (size : ℕ) (st : SolverSt α) (i : ℕ) : Option (SolverSt α) :=
  let p0 := Function.update st.p 0 i
  match augment cost size p0 (size + 1)
      ⟨st.u, st.v, st.way, fun _ => none, fun _ => false, 0⟩ with
  | none => none
  | some st1 =>
    match reconstruct st1.way (size + 1) st1.j0 p0 with
    | none => none
    | some p1 => some ⟨st1.u, st1.v, p1, st1.way⟩

/-- The outer loop `for i in 1..=size` of `hungarian_core`. -/
def solveRows (cost : List α) (size : ℕ) (st : SolverSt α) (rows : List ℕ) :
    Option (SolverSt α) :=
  rows.foldlM (solveRow cost size) st

/-- One step of the result-building loop (lib.rs lines 128–132): for a
column `j` whose matched row is a real row (`0 < p[j] ≤ n`) and which is
itself a real column (`j ≤ m`), write `j - 1` at index `p[j] - 1`. -/
def assignStep (p : ℕ → ℕ) (n m : ℕ) (acc : List ℤ) (j : ℕ) : List ℤ :=
  if 0 < p j ∧ p j ≤ n ∧ j ≤ m then acc.set (p j - 1) ((j : ℤ) - 1) else acc

/-- Building the returned assignment (lib.rs lines 126–132): start from
`vec![-1; n]` and fold the write step over the columns `1..=size`. -/
def buildAssignment (p : ℕ → ℕ) (n m size : ℕ) : List ℤ :=
  (List.range' 1 size).foldl (assignStep p n m) (List.replicate n (-1 : ℤ))

/-- `hungarian_core` (lib.rs lines 58–135): all scratch arrays start
zeroed, the outer loop processes rows `1..=size`, and the assignment is
projected back onto the original `n` rows and `m` columns. -/
def hungarian_core (cost : List α) (size n m : ℕ) : Option (List ℤ) :=
  match solveRows cost size ⟨fun _ => 0, fun _ => 0, fun _ => 0, fun _ => 0⟩
      (List.range' 1 size) with
  | none => none
  | some st => some (buildAssignment st.p n m size)

/-- `hungarian_algorithm` (lib.rs lines 18–55): pad the input to a
`size × size` square matrix with `size = max n m`, using the parallel
build when `size > 50` and the sequential one otherwise, then run the
core.  No validation of the input is performed. -/
def hungarian_algorithm (costM : List α) (n m : ℕ) : Option (List ℤ) :=
  match (if 50 < max n m then padded_parallel costM n m (max n m)
         else padded_sequential costM n m (max n m)) with
  | none => none
  | some cost => hungarian_core cost (max n m) n m

/-- `hungarian_algorithm` with the padding strategy forced (`true` =
the parallel build, `false` = the sequential build), used to state that
the choice of strategy never affects the result. -/
def hungarian_algorithm_with (par : Bool) (costM : List α) (n m : ℕ) :
    Option (List ℤ) :=
  match (if par then padded_parallel costM n m (max n m)
         else padded_sequential costM n m (max n m)) with
  | none => none
  | some cost => hungarian_core cost (max n m) n m

/-- The fill rule of the specification that both build strategies
implement: cell `(i, j)` of the padded matrix is `input[i*m+j]` inside
the original `n × m` window and `0` outside. -/
def fillCell (costM : List α) (n m i j : ℕ) : α :=
  if i < n ∧ j < m then costM.getD (i * m + j) 0 else 0

/-- The padded square matrix described by the fill rule, row-major. -/
def padFill (costM : List α) (n m size : ℕ) : List α :=
  ((List.range size).map (fun i => (List.range size).map (fillCell costM n m i))).flatten

/-- The reduced cost computed by the scan for column `j` from row `i0`
(`cost[(i0-1)*size + (j-1)] - u[i0] - v[j]`, with the in-range read
expressed via `getD`; the specifications below only use it at indices
that are proved in range). -/
def redCost (cost : List α) (size i0 : ℕ) (u v : ℕ → α) (j : ℕ) : α :=
  cost.getD ((i0 - 1) * size + (j - 1)) 0 - u i0 - v j

/-- The set of real (non-virtual) columns currently matched by `p`. -/
def Mset (p : ℕ → ℕ) (size : ℕ) : Finset ℕ :=
  (Finset.Icc 1 size).filter (fun j => p j ≠ 0)

/-- What one full scan pass guarantees: the final tracker state `s`
relates to the initial state `s0` over the scanned columns `js` exactly
as the loop body dictates. -/
structure ScanOut (cost : List α) (size i0 j0 : ℕ) (u v : ℕ → α) (used : ℕ → Bool)
    (s0 s : ScanSt α) (js : List ℕ) : Prop where
  untouched : ∀ j, (used j = true ∨ j ∉ js) → s.minv j = s0.minv j ∧ s.way j = s0.way j
  char : ∀ j ∈ js, used j = false →
    if fLt (some (redCost cost size i0 u v j)) (s0.minv j) = true
    then s.minv j = some (redCost cost size i0 u v j) ∧ s.way j = j0
    else s.minv j = s0.minv j ∧ s.way j = s0.way j
  delta_none : s.delta = none → ∀ j ∈ js, used j = true
  delta_some : s.delta ≠ none → s.j1 ∈ js ∧ used s.j1 = false ∧ s.delta = s.minv s.j1
  delta_min : ∀ j ∈ js, used j = false → fLt (s.minv j) s.delta = false

/-- Invariant at the top of an iteration of the augmenting-path search:
`L` is the list of already-visited columns in visit order and `st.j0`
the current, not yet visited, column. -/
structure InnerInv (size : ℕ) (p : ℕ → ℕ) (st : InnerSt α) (L : List ℕ) : Prop where
  nodupL : L.Nodup
  memL_le : ∀ x ∈ L, x ≤ size
  first_zero : ∀ hk : 0 < L.length, L[0] = 0
  empty_j0 : L = [] → st.j0 = 0
  used_iff : ∀ j, st.used j = true ↔ j ∈ L
  Lmatched : ∀ x ∈ L, x ≠ 0 → p x ≠ 0
  j0_le : st.j0 ≤ size
  j0_not_mem : st.j0 ∉ L
  j0_matched : p st.j0 ≠ 0
  j0_minv : st.j0 ≠ 0 → st.minv st.j0 ≠ none
  way_dec : ∀ k, (hk : k < L.length) → 0 < k → st.way L[k] ∈ L.take k
  minv_way : ∀ j, j ∉ L → st.minv j ≠ none → st.way j ∈ L

/-- What holds when the augmenting-path search succeeds: `jend` is the
reached unmatched column and `L` the visit list whose recorded
predecessors the reconstruction loop will walk back to column `0`. -/
structure PathEnd (size : ℕ) (p : ℕ → ℕ) (way : ℕ → ℕ) (jend : ℕ) (L : List ℕ) : Prop where
  nodupL : L.Nodup
  memL_le : ∀ x ∈ L, x ≤ size
  first_zero : ∀ hk : 0 < L.length, L[0] = 0
  Lmatched : ∀ x ∈ L, x ≠ 0 → p x ≠ 0
  way_dec : ∀ k, (hk : k < L.length) → 0 < k → way L[k] ∈ L.take k
  jend_pos : 1 ≤ jend
  jend_le : jend ≤ size
  jend_unmatched : p jend = 0
  jend_not_mem : jend ∉ L
  way_jend : way jend ∈ L
  len_le : L.length ≤ (Mset p size).card + 1

/-- Invariant after the outer loop has processed rows `1..k`: all
match-map values are in range, matched columns carry pairwise distinct
rows, and the set of matched rows is exactly `1..k`. -/
structure OuterInv (size k : ℕ) (p : ℕ → ℕ) : Prop where
  ple : ∀ j, p j ≤ size
  inj : Set.InjOn p ↑(Mset p size)
  img : Finset.image p (Mset p size) = Finset.Icc 1 k

/-- The total original cost of a returned assignment: the sum, over the
rows assigned a real column, of the input cost of that pairing (the
specification's "sum of costs at the returned assignment"). -/
def totalCostOfResult (costM : List α) (m : ℕ) (r : List ℤ) : α :=
  (List.range r.length).foldl (fun acc i =>
    match r[i]? with
    | some j => if 0 ≤ j then acc + costM.getD (i * m + j.toNat) 0 else acc
    | none => acc) 0

/-- The contribution of row `i` to the total cost of a returned
assignment `r` (the amount `totalCostOfResult` adds for that row). -/
def resultCellCost (costM : List α) (m : ℕ) (r : List ℤ) (i : ℕ) : α :=
  match r[i]? with
  | some j => if 0 ≤ j then costM.getD (i * m + j.toNat) 0 else 0
  | none => 0

/-- The cost-matrix entry the solver associates with (1-indexed) row `i`
and column `j`: the read `cost[(i-1)*size + (j-1)]` of the scan loop,
expressed via `getD` (used only at indices proved in range). -/
def cellCost (cost : List α) (size i j : ℕ) : α :=
  cost.getD ((i - 1) * size + (j - 1)) 0

/-- Dual-potential invariant carried through the augmenting-path search.
Rows `1..k` are the rows already matched by earlier outer iterations and
`p 0` is the row being inserted.  The potentials remain feasible on the
processed rows (`feasK`) and, once the first potential shift has run, on
the new row (`feasCur`); matched edges (`tight`), alternating-tree edges
(`way_tight`, `j0_tight`) are tight; and the tracker `minv` stores
exactly the reduced cost through the recorded predecessor (`minv_eq`)
while bounding every tree edge from below (`minv_lb`). -/
structure DualInner (cost : List α) (size k : ℕ) (p : ℕ → ℕ) (st : InnerSt α)
    (L : List ℕ) : Prop where
  feasK : ∀ i ∈ Finset.Icc 1 k, ∀ j ∈ Finset.Icc 1 size,
    st.u i + st.v j ≤ cellCost cost size i j
  feasCur : L ≠ [] → ∀ j ∈ Finset.Icc 1 size,
    st.u (p 0) + st.v j ≤ cellCost cost size (p 0) j
  tight : ∀ j ∈ Finset.Icc 1 size, p j ≠ 0 →
    st.u (p j) + st.v j = cellCost cost size (p j) j
  way_tight : ∀ j ∈ L, j ≠ 0 →
    st.u (p (st.way j)) + st.v j = cellCost cost size (p (st.way j)) j
  j0_tight : st.j0 ≠ 0 →
    st.u (p (st.way st.j0)) + st.v st.j0 =
      cellCost cost size (p (st.way st.j0)) st.j0
  minv_lb : ∀ j, 1 ≤ j → j ≤ size → j ∉ L → j ≠ st.j0 → ∀ jt ∈ L,
    fLt (some (redCost cost size (p jt) st.u st.v j)) (st.minv j) = false
  minv_eq : ∀ j, 1 ≤ j → j ≤ size → j ∉ L → j ≠ st.j0 → st.minv j ≠ none →
    st.minv j = some (redCost cost size (p (st.way j)) st.u st.v j)

/-- Dual facts holding when the augmenting-path search succeeds, with
the final potentials of state `st`: feasibility on the processed rows
and the inserted row `p 0`, tightness of the matched edges, and
tightness of every tree edge recorded in `way` along the visited
columns `L2` and the terminal column `st.j0`. -/
structure DualEnd (cost : List α) (size k : ℕ) (p : ℕ → ℕ) (st : InnerSt α)
    (L2 : List ℕ) : Prop where
  feasK : ∀ i ∈ Finset.Icc 1 k, ∀ j ∈ Finset.Icc 1 size,
    st.u i + st.v j ≤ cellCost cost size i j
  feasCur : ∀ j ∈ Finset.Icc 1 size,
    st.u (p 0) + st.v j ≤ cellCost cost size (p 0) j
  tight : ∀ j ∈ Finset.Icc 1 size, p j ≠ 0 →
    st.u (p j) + st.v j = cellCost cost size (p j) j
  way_tight : ∀ j, j ∈ L2 ∨ j = st.j0 → j ≠ 0 →
    st.u (p (st.way j)) + st.v j = cellCost cost size (p (st.way j)) j

/-- Dual-potential invariant of the outer loop after rows `1..k` have
been processed: the potentials are feasible on the processed rows and
every matched edge is tight. -/
structure DualOuter (cost : List α) (size k : ℕ) (u v : ℕ → α) (p : ℕ → ℕ) : Prop where
  feas : ∀ i ∈ Finset.Icc 1 k, ∀ j ∈ Finset.Icc 1 size,
    u i + v j ≤ cellCost cost size i j
  tight : ∀ j ∈ Finset.Icc 1 size, p j ≠ 0 →
    u (p j) + v j = cellCost cost size (p j) j

/-- The total padded cost of the perfect matching `σ` of the
`size × size` square matrix: row `i` is paired with column `σ i`
(0-based on both sides). -/
def matchingCost (cost : List α) (size : ℕ) (σ : Equiv.Perm (Fin size)) : α :=
  ∑ i : Fin size, cost.getD (i.val * size + (σ i).val) 0

/-- The (1-indexed) row that the perfect matching `σ` pairs with the
(1-indexed) column `j`; `0` outside the real columns. -/
def permRow {size : ℕ} (σ : Equiv.Perm (Fin size)) (j : ℕ) : ℕ :=
  if h : 1 ≤ j ∧ j ≤ size then ((σ.symm ⟨j - 1, by omega⟩ : Fin size) : ℕ) + 1 else 0

/-! ### Generic list helpers -/

theorem bind_some_eq {γ δ : Type} (a : γ) (f : γ → Option δ) : (some a >>= f) = f a := rfl

theorem mapM_eq_some_map {γ δ : Type} (f : γ → Option δ) (g : γ → δ) :
    ∀ l : List γ, (∀ x ∈ l, f x = some (g x)) → l.mapM f = some (l.map g) := by
  intro l
  induction l with
  | nil => intro _; rfl
  | cons a t ih =>
    intro h
    rw [List.mapM_cons, h a (List.mem_cons_self a t),
      ih (fun x hx => h x (List.mem_cons_of_mem a hx))]
    rfl

theorem mapM_eq_none_of_mem {γ δ : Type} (f : γ → Option δ) :
    ∀ l : List γ, ∀ x ∈ l, f x = none → l.mapM f = none := by
  intro l
  induction l with
  | nil => intro x hx _; exact absurd hx (List.not_mem_nil x)
  | cons a t ih =>
    intro x hx hfx
    rw [List.mapM_cons]
    rcases List.mem_cons.mp hx with rfl | hxt
    · rw [hfx]; rfl
    · rw [ih x hxt hfx]
      cases f a <;> rfl

theorem foldlM_eq_none_of_mem {γ δ : Type} (f : δ → γ → Option δ) :
    ∀ l : List γ, ∀ x ∈ l, (∀ b, f b x = none) → ∀ b, l.foldlM f b = none := by
  intro l
  induction l with
  | nil => intro x hx _ _; exact absurd hx (List.not_mem_nil x)
  | cons a t ih =>
    intro x hx hfx b
    rw [List.foldlM_cons]
    rcases List.mem_cons.mp hx with rfl | hxt
    · rw [hfx b]; rfl
    · cases hfa : f b a with
      | none => rfl
      | some b2 => exact ih x hxt hfx b2

theorem flatten_length_uniform {γ : Type} (w : ℕ) :
    ∀ L : List (List γ), (∀ r ∈ L, r.length = w) → L.flatten.length = L.length * w := by
  intro L
  induction L with
  | nil => intro _; simp
  | cons r t ih =>
    intro h
    have hr : r.length = w := h r (List.mem_cons_self r t)
    have ht := ih (fun x hx => h x (List.mem_cons_of_mem r hx))
    simp only [List.flatten_cons, List.length_append, List.length_cons, hr, ht]
    ring

theorem flatten_getElem_uniform {γ : Type} (w : ℕ) :
    ∀ (L : List (List γ)) (q j : ℕ), (∀ r ∈ L, r.length = w) → j < w →
      L.flatten[q * w + j]? = L[q]?.bind (fun r => r[j]?) := by
  intro L
  induction L with
  | nil => intro q j _ _; simp
  | cons r t ih =>
    intro q j h hj
    have hr : r.length = w := h r (List.mem_cons_self r t)
    have ht : ∀ x ∈ t, x.length = w := fun x hx => h x (List.mem_cons_of_mem r hx)
    cases q with
    | zero =>
      rw [Nat.zero_mul, Nat.zero_add, List.flatten_cons,
        List.getElem?_append_left (by omega)]
      simp
    | succ q2 =>
      have hlen : r.length ≤ (q2 + 1) * w + j := by
        rw [hr, Nat.succ_mul]; omega
      rw [List.flatten_cons, List.getElem?_append_right hlen]
      have harith : (q2 + 1) * w + j - r.length = q2 * w + j := by
        rw [hr, Nat.succ_mul]; omega
      rw [harith, ih q2 j ht hj]
      simp

theorem cell_lt {size i j : ℕ} (hi : i < size) (hj : j < size) :
    i * size + j < size * size := by
  have h1 : i * size + j < (i + 1) * size := by rw [Nat.succ_mul]; omega
  have h2 : (i + 1) * size ≤ size * size := Nat.mul_le_mul (by omega) (le_refl size)
  omega

theorem cell_index_inj {size i j i2 j2 : ℕ} (hj : j < size) (hj2 : j2 < size)
    (h : i * size + j = i2 * size + j2) : i = i2 ∧ j = j2 := by
  have hsize : 0 < size := by omega
  have e1 : (i * size + j) / size = i := by
    rw [Nat.mul_comm i size, Nat.mul_add_div hsize, Nat.div_eq_of_lt hj, Nat.add_zero]
  have e2 : (i2 * size + j2) / size = i2 := by
    rw [Nat.mul_comm i2 size, Nat.mul_add_div hsize, Nat.div_eq_of_lt hj2, Nat.add_zero]
  have hii : i = i2 := by rw [← e1, ← e2, h]
  refine ⟨hii, ?_⟩
  subst hii
  omega

/-! ### The two padded-matrix builders agree and obey the fill rule -/

theorem cost_window_lt {n m i j L : ℕ} (hlen : n * m ≤ L) (hi : i < n) (hj : j < m) :
    i * m + j < L := by
  have h1 : i * m + j < (i + 1) * m := by rw [Nat.succ_mul]; omega
  have h2 : (i + 1) * m ≤ n * m := Nat.mul_le_mul (by omega) (le_refl m)
  omega

theorem padFill_length (costM : List α) (n m size : ℕ) :
    (padFill costM n m size).length = size * size := by
  unfold padFill
  rw [flatten_length_uniform size _ (by
    intro r hr
    rcases List.mem_map.mp hr with ⟨i, _, rfl⟩
    simp)]
  simp

theorem padFill_getElem (costM : List α) (n m size : ℕ) {i j : ℕ}
    (hi : i < size) (hj : j < size) :
    (padFill costM n m size)[i * size + j]? = some (fillCell costM n m i j) := by
  unfold padFill
  rw [flatten_getElem_uniform size _ i j (by
    intro r hr
    rcases List.mem_map.mp hr with ⟨i2, _, rfl⟩
    simp) hj]
  rw [List.getElem?_map, List.getElem?_range hi]
  simp [List.getElem?_map, List.getElem?_range hj]

theorem padRow_eq (costM : List α) (n m size : ℕ)
    (hacc : ∀ i j, i < n → j < m → i * m + j < costM.length) (i : ℕ) :
    padRow costM n m size i = some ((List.range size).map (fillCell costM n m i)) := by
  apply mapM_eq_some_map
  intro j _
  by_cases hw : i < n ∧ j < m
  · rw [if_pos hw, List.getElem?_eq_getElem (hacc i j hw.1 hw.2)]
    rw [fillCell, if_pos hw, List.getD_eq_getElem _ _ (hacc i j hw.1 hw.2)]
  · rw [if_neg hw, fillCell, if_neg hw]

theorem padded_parallel_eq (costM : List α) (n m size : ℕ)
    (hacc : ∀ i j, i < n → j < m → i * m + j < costM.length) :
    padded_parallel costM n m size = some (padFill costM n m size) := by
  unfold padded_parallel
  rw [mapM_eq_some_map (padRow costM n m size)
    (fun i => (List.range size).map (fillCell costM n m i)) _
    (fun i _ => padRow_eq costM n m size hacc i)]
  rfl

theorem padSeqRow_aux (costM : List α) (n m size : ℕ)
    (hacc : ∀ i j, i < n → j < m → i * m + j < costM.length) (i : ℕ) (hi : i < size) :
    ∀ t, t ≤ size → ∀ B : List α, B.length = size * size →
      ∃ B2 : List α, (List.range t).foldlM (fun b j =>
          if i < n ∧ j < m then
            match costM[i * m + j]? with
            | none => none
            | some c => some (b.set (i * size + j) c)
          else some b) B = some B2 ∧
        B2.length = size * size ∧
        (∀ j, j < t → B2[i * size + j]? =
          if i < n ∧ j < m then some (costM.getD (i * m + j) 0) else B[i * size + j]?) ∧
        (∀ idx : ℕ, (∀ j, j < t → idx ≠ i * size + j) → B2[idx]? = B[idx]?) := by
  intro t
  induction t with
  | zero =>
    intro _ B hB
    exact ⟨B, rfl, hB, fun j hj => absurd hj (Nat.not_lt_zero j), fun idx _ => rfl⟩
  | succ t ih =>
    intro ht B hB
    obtain ⟨B1, hfold, hB1, hrow, hoff⟩ := ih (by omega) B hB
    have htsize : t < size := by omega
    rw [List.range_succ, List.foldlM_append, hfold, bind_some_eq, List.foldlM_cons]
    by_cases hw : i < n ∧ t < m
    · have haccit := hacc i t hw.1 hw.2
      rw [if_pos hw, List.getElem?_eq_getElem haccit]
      refine ⟨B1.set (i * size + t) costM[i * m + t], rfl, ?_, ?_, ?_⟩
      · rw [List.length_set]; exact hB1
      · intro j hj
        rcases Nat.lt_or_ge j t with hjt | hjt
        · rw [List.getElem?_set, if_neg (by omega), hrow j hjt]
        · have hjeq : j = t := by omega
          subst hjeq
          rw [List.getElem?_set, if_pos rfl, if_pos (by rw [hB1]; exact cell_lt hi htsize),
            if_pos hw, List.getD_eq_getElem _ _ haccit]
      · intro idx hidx
        rw [List.getElem?_set, if_neg (fun heq => hidx t (by omega) heq.symm),
          hoff idx (fun j hj => hidx j (by omega))]
    · rw [if_neg hw]
      refine ⟨B1, rfl, hB1, ?_, ?_⟩
      · intro j hj
        rcases Nat.lt_or_ge j t with hjt | hjt
        · rw [hrow j hjt]
        · have hjeq : j = t := by omega
          subst hjeq
          rw [if_neg hw]
          refine hoff (i * size + j) ?_
          intro j2 hj2 heq
          have h2 := (cell_index_inj (show j < size by omega) (show j2 < size by omega) heq).2
          omega
      · intro idx hidx
        exact hoff idx (fun j hj => hidx j (by omega))

theorem padSeqRow_spec (costM : List α) (n m size : ℕ)
    (hacc : ∀ i j, i < n → j < m → i * m + j < costM.length) (i : ℕ) (hi : i < size)
    (B : List α) (hB : B.length = size * size) :
    ∃ B2 : List α, padSeqRow costM n m size i B = some B2 ∧
      B2.length = size * size ∧
      (∀ j, j < size → B2[i * size + j]? =
        if i < n ∧ j < m then some (costM.getD (i * m + j) 0) else B[i * size + j]?) ∧
      (∀ idx : ℕ, (∀ j, j < size → idx ≠ i * size + j) → B2[idx]? = B[idx]?) :=
  padSeqRow_aux costM n m size hacc i hi size le_rfl B hB

theorem padded_sequential_aux (costM : List α) (n m size : ℕ)
    (hacc : ∀ i j, i < n → j < m → i * m + j < costM.length) :
    ∀ k, k ≤ size →
      ∃ B : List α, (List.range k).foldlM (fun b i => padSeqRow costM n m size i b)
          (List.replicate (size * size) (0 : α)) = some B ∧
        B.length = size * size ∧
        ∀ i j, i < size → j < size →
          B[i * size + j]? = some (if i < k then fillCell costM n m i j else 0) := by
  intro k
  induction k with
  | zero =>
    refine fun _ => ⟨List.replicate (size * size) (0 : α), rfl, by simp, ?_⟩
    intro i j hi hj
    rw [List.getElem?_replicate, if_pos (cell_lt hi hj)]
    simp
  | succ k ih =>
    intro hk
    obtain ⟨B1, hfold, hB1, hpt⟩ := ih (by omega)
    have hksize : k < size := by omega
    obtain ⟨B2, hrowfold, hB2, hrow, hoff⟩ :=
      padSeqRow_spec costM n m size hacc k hksize B1 hB1
    refine ⟨B2, ?_, hB2, ?_⟩
    · rw [List.range_succ, List.foldlM_append, hfold, bind_some_eq, List.foldlM_cons,
        hrowfold]
      rfl
    · intro i j hi hj
      by_cases hik : i = k
      · subst hik
        rw [hrow j hj]
        by_cases hw : i < n ∧ j < m
        · rw [if_pos hw, if_pos (by omega), fillCell, if_pos hw]
        · rw [if_neg hw, hpt i j hi hj, if_neg (by omega), if_pos (by omega),
            fillCell, if_neg hw]
      · rw [hoff (i * size + j) (fun j2 hj2 heq => hik (cell_index_inj hj hj2 heq).1),
          hpt i j hi hj]
        by_cases hikk : i < k
        · rw [if_pos hikk, if_pos (by omega)]
        · rw [if_neg hikk, if_neg (by omega)]

theorem padded_sequential_eq (costM : List α) (n m size : ℕ)
    (hacc : ∀ i j, i < n → j < m → i * m + j < costM.length) :
    padded_sequential costM n m size = some (padFill costM n m size) := by
  obtain ⟨B, hfold, hlen, hpt⟩ := padded_sequential_aux costM n m size hacc size le_rfl
  unfold padded_sequential
  rw [hfold]
  congr 1
  apply List.ext_getElem?
  intro idx
  by_cases hidx : idx < size * size
  · have hsize : 0 < size := by
      rcases Nat.eq_zero_or_pos size with h0 | h0
      · rw [h0] at hidx; omega
      · exact h0
    have hq : idx / size < size := by
      rw [Nat.div_lt_iff_lt_mul hsize]; omega
    have hr : idx % size < size := Nat.mod_lt _ hsize
    have hdecomp : (idx / size) * size + idx % size = idx := by
      rw [Nat.mul_comm]; exact Nat.div_add_mod idx size
    rw [← hdecomp, hpt _ _ hq hr, padFill_getElem costM n m size hq hr,
      if_pos hq, fillCell]
  · rw [List.getElem?_eq_none (by omega),
      List.getElem?_eq_none (by rw [padFill_length]; omega)]

/-- The two build strategies produce identical padded matrices at
`size = max n m` (the dimension `hungarian_algorithm` uses), including
identical panic behaviour on short inputs. -/
theorem builds_agree (costM : List α) (n m : ℕ) :
    padded_parallel costM n m (max n m) = padded_sequential costM n m (max n m) := by
  by_cases hC : ∀ i j, i < n → j < m → i * m + j < costM.length
  · rw [padded_parallel_eq costM n m (max n m) hC,
      padded_sequential_eq costM n m (max n m) hC]
  · push_neg at hC
    obtain ⟨i, j, hi, hj, hge⟩ := hC
    have himem : i ∈ List.range (max n m) := List.mem_range.mpr (by omega)
    have hjmem : j ∈ List.range (max n m) := List.mem_range.mpr (by omega)
    have hpar : padded_parallel costM n m (max n m) = none := by
      unfold padded_parallel
      rw [mapM_eq_none_of_mem _ _ i himem (by
        unfold padRow
        exact mapM_eq_none_of_mem _ _ j hjmem (by
          rw [if_pos ⟨hi, hj⟩]
          exact List.getElem?_eq_none hge))]
      rfl
    have hseq : padded_sequential costM n m (max n m) = none := by
      unfold padded_sequential
      exact foldlM_eq_none_of_mem _ _ i himem (fun b => by
        unfold padSeqRow
        exact foldlM_eq_none_of_mem _ _ j hjmem (fun b2 => by
          rw [if_pos ⟨hi, hj⟩, List.getElem?_eq_none hge]) b) _
    rw [hpar, hseq]

theorem strategy_eq_algorithm (costM : List α) (n m : ℕ) (par : Bool) :
    hungarian_algorithm_with par costM n m = hungarian_algorithm costM n m := by
  have hb := builds_agree costM n m
  unfold hungarian_algorithm_with hungarian_algorithm
  by_cases h50 : 50 < max n m
  · rw [if_pos h50]
    cases par
    · rw [if_neg (by simp), hb]
    · rw [if_pos rfl]
  · rw [if_neg h50]
    cases par
    · rw [if_neg (by simp)]
    · rw [if_pos rfl, hb]

/-- C6: for every valid input and whichever build strategy is selected, the
padded square matrix of dimension `size = max rows cols` built inside
`hungarian_algorithm` has cell `(i, j)` equal to `input[i*cols + j]` when
`i < rows ∧ j < cols`, and equal to exactly `0` otherwise. -/
theorem fill_rule_both_strategies (costM : List α) (n m : ℕ) (par : Bool)
    (hlen : costM.length = n * m) :
    ∃ P : List α,
      (if par then padded_parallel costM n m (max n m)
       else padded_sequential costM n m (max n m)) = some P ∧
      P.length = max n m * max n m ∧
      ∀ i j, i < max n m → j < max n m →
        P[i * max n m + j]? =
          some (if i < n ∧ j < m then costM.getD (i * m + j) 0 else 0) := by
  have hacc : ∀ i j, i < n → j < m → i * m + j < costM.length := by
    intro i j hi hj
    rw [hlen]
    exact cost_window_lt le_rfl hi hj
  refine ⟨padFill costM n m (max n m), ?_, padFill_length costM n m (max n m), ?_⟩
  · cases par
    · rw [if_neg (by simp)]
      exact padded_sequential_eq costM n m (max n m) hacc
    · rw [if_pos rfl]
      exact padded_parallel_eq costM n m (max n m) hacc
  · intro i j hi hj
    rw [padFill_getElem costM n m (max n m) hi hj, fillCell]

theorem fill_rule_both_strategies_witness :
    (([5] : List ℤ).length = 1 * 1) ∧
    ∃ P : List ℤ,
      (if true then padded_parallel ([5] : List ℤ) 1 1 (max 1 1)
       else padded_sequential [5] 1 1 (max 1 1)) = some P ∧
      P.length = max 1 1 * max 1 1 ∧
      ∀ i j, i < max 1 1 → j < max 1 1 →
        P[i * max 1 1 + j]? =
          some (if i < 1 ∧ j < 1 then ([5] : List ℤ).getD (i * 1 + j) 0 else 0) :=
  ⟨by decide, fill_rule_both_strategies ([5] : List ℤ) 1 1 true (by decide)⟩

/-- C7: the parallel padded-matrix construction (selected when the padded
dimension exceeds 50) and the sequential construction produce bit-identical
padded matrices — including identical behaviour on out-of-range inputs — so
`hungarian_algorithm` returns the same assignment whichever strategy is
forced. -/
theorem parallel_sequential_identical (costM : List α) (n m : ℕ) :
    padded_parallel costM n m (max n m) = padded_sequential costM n m (max n m) ∧
    ∀ par : Bool, hungarian_algorithm_with par costM n m = hungarian_algorithm costM n m :=
  ⟨builds_agree costM n m, strategy_eq_algorithm costM n m⟩

/-- C9: the solver is fully deterministic as a value: the returned sequence
is a pure function of `(cost, rows, cols)` alone, unchanged when the padding
strategy is forced either way, so neither the size-based strategy selection
nor any worker count or scheduling can influence the returned entries. -/
theorem deterministic_value (costM : List α) (n m : ℕ) (par1 par2 : Bool) :
    hungarian_algorithm_with par1 costM n m = hungarian_algorithm_with par2 costM n m ∧
    hungarian_algorithm_with par1 costM n m = hungarian_algorithm costM n m :=
  ⟨(strategy_eq_algorithm costM n m par1).trans (strategy_eq_algorithm costM n m par2).symm,
    strategy_eq_algorithm costM n m par1⟩

/-- C2, refuted by the code: `hungarian_algorithm` contains no validation at
all.  On an input whose length (6) disagrees with `rows·cols = 1·2`, the
claimed DimensionMismatch failure does not occur: the solver runs and an
assignment is returned. -/
theorem no_validation_dimension_mismatch :
    ([1, 5, 2, 3, 1, 4] : List ℤ).length ≠ 1 * 2 ∧
    hungarian_algorithm ([1, 5, 2, 3, 1, 4] : List ℤ) 1 2 = some [0] := by
  constructor
  · decide
  · decide

/-- C8: on the rectangular scenario `cost = [[1,5,2],[3,1,4]]` with 2 rows
and 3 columns, `hungarian_algorithm` returns exactly `[0, 1]`, and the total
original cost of that assignment is `2`. -/
theorem scenario_b_exact :
    hungarian_algorithm ([1, 5, 2, 3, 1, 4] : List ℤ) 2 3 = some [0, 1] ∧
    totalCostOfResult ([1, 5, 2, 3, 1, 4] : List ℤ) 3 [0, 1] = 2 := by
  constructor
  · decide
  · decide

/-! ### Order facts about the infinity-aware comparison -/

theorem fLt_irrefl (x : Option α) : fLt x x = false := by
  cases x with
  | none => rfl
  | some a => simp [fLt]

theorem fLt_none_left (x : Option α) : fLt none x = false := rfl

theorem fLt_some_none (a : α) : fLt (some a) none = true := rfl

theorem fLt_none_right {x : Option α} : fLt x none = true ↔ x ≠ none := by
  cases x with
  | none => simp [fLt]
  | some a => simp [fLt]

theorem fLt_trans {x y z : Option α} (h1 : fLt x y = true) (h2 : fLt y z = true) :
    fLt x z = true := by
  cases x with
  | none => simp [fLt] at h1
  | some a =>
    cases z with
    | none => rfl
    | some c =>
      cases y with
      | none => simp [fLt] at h2
      | some b =>
        simp only [fLt, decide_eq_true_eq] at h1 h2 ⊢
        exact lt_trans h1 h2

theorem fLt_false_of_lt_of_false {x y z : Option α} (h1 : fLt x y = true)
    (h2 : fLt z y = false) : fLt z x = false := by
  cases x with
  | none => rw [fLt_none_left] at h1; cases h1
  | some a =>
    cases z with
    | none => rfl
    | some c =>
      cases y with
      | none => rw [fLt_some_none] at h2; cases h2
      | some b =>
        simp only [fLt, decide_eq_true_eq, decide_eq_false_iff_not] at h1 h2 ⊢
        exact not_lt.mpr (le_of_lt (lt_of_lt_of_le h1 (not_lt.mp h2)))

theorem fLt_false_trans {x y z : Option α} (h1 : fLt x y = false)
    (h2 : fLt y z = false) : fLt x z = false := by
  cases x with
  | none => rfl
  | some a =>
    cases y with
    | none => rw [fLt_some_none] at h1; cases h1
    | some b =>
      cases z with
      | none => rw [fLt_some_none] at h2; cases h2
      | some c =>
        simp only [fLt, decide_eq_false_iff_not] at h1 h2 ⊢
        exact not_lt.mpr (le_trans (not_lt.mp h2) (not_lt.mp h1))

theorem fLt_some_false_iff {a b : α} : fLt (some a) (some b) = false ↔ b ≤ a := by
  simp only [fLt, decide_eq_false_iff_not, not_lt]

theorem fLt_fSub_of_false {x y : Option α} (d : α) (h : fLt x y = false) :
    fLt (fSub x d) (fSub y d) = false := by
  cases x with
  | none => rfl
  | some a =>
    cases y with
    | none => rw [fLt_some_none] at h; cases h
    | some b =>
      show fLt (some (a - d)) (some (b - d)) = false
      rw [fLt_some_false_iff] at h ⊢
      exact sub_le_sub_right h d

theorem le_red_iff (dd a b c : α) : dd ≤ c - a - b ↔ a + dd + b ≤ c := by
  rw [sub_sub, le_sub_iff_add_le]
  have e : dd + (a + b) = a + dd + b := by abel
  rw [e]

theorem red_nonneg_iff (a b c : α) : (0 : α) ≤ c - a - b ↔ a + b ≤ c := by
  rw [sub_sub, sub_nonneg]

theorem redCost_cell (cost : List α) (size i0 : ℕ) (u v : ℕ → α) (j : ℕ) :
    redCost cost size i0 u v j = cellCost cost size i0 j - u i0 - v j := rfl

theorem getElem?_eq_some_getD {γ : Type} (d : γ) {l : List γ} {n : ℕ}
    (h : n < l.length) : l[n]? = some (l.getD n d) := by
  rw [List.getElem?_eq_getElem h, List.getD_eq_getElem _ _ h]

/-! ### The scan loop -/

theorem ScanOut.snoc (cost : List α) (size i0 j0 : ℕ) (u v : ℕ → α) (used : ℕ → Bool)
    (s0 s1 s : ScanSt α) (init : List ℕ) (a : ℕ)
    (hout : ScanOut cost size i0 j0 u v used s0 s1 init)
    (hai : a ∉ init) (hau : used a = false)
    (hminv_a : if fLt (some (redCost cost size i0 u v a)) (s1.minv a) = true
       then s.minv a = some (redCost cost size i0 u v a) ∧ s.way a = j0
       else s.minv a = s1.minv a ∧ s.way a = s1.way a)
    (hother : ∀ j, j ≠ a → s.minv j = s1.minv j ∧ s.way j = s1.way j)
    (hdelta : if fLt (s.minv a) s1.delta = true
       then s.delta = s.minv a ∧ s.j1 = a
       else s.delta = s1.delta ∧ s.j1 = s1.j1) :
    ScanOut cost size i0 j0 u v used s0 s (init ++ [a]) := by
  have huta : s1.minv a = s0.minv a ∧ s1.way a = s0.way a :=
    hout.untouched a (Or.inr hai)
  have hsminv_a : if fLt (some (redCost cost size i0 u v a)) (s0.minv a) = true
      then s.minv a = some (redCost cost size i0 u v a) ∧ s.way a = j0
      else s.minv a = s0.minv a ∧ s.way a = s0.way a := by
    rw [← huta.1, ← huta.2]
    exact hminv_a
  have hsa_ne : s.minv a ≠ none := by
    by_cases hc : fLt (some (redCost cost size i0 u v a)) (s1.minv a) = true
    · rw [if_pos hc] at hminv_a
      rw [hminv_a.1]
      exact Option.some_ne_none _
    · rw [if_neg hc] at hminv_a
      rw [hminv_a.1]
      intro hn
      rw [hn] at hc
      exact hc (fLt_some_none _)
  constructor
  · -- untouched
    intro j hj
    have hja : j ≠ a := by
      rcases hj with hju | hjm
      · intro he; rw [he] at hju; rw [hju] at hau; cases hau
      · intro he
        refine hjm ?_
        rw [he]
        exact List.mem_append_right _ (List.mem_singleton_self a)
    refine (hother j hja).1 ▸ (hother j hja).2 ▸ hout.untouched j ?_
    rcases hj with hju | hjm
    · exact Or.inl hju
    · exact Or.inr (fun h => hjm (List.mem_append_left _ h))
  · -- char
    intro j hj hjf
    rcases List.mem_append.mp hj with hj2 | hj2
    · have hja : j ≠ a := fun he => hai (he ▸ hj2)
      rw [(hother j hja).1, (hother j hja).2]
      exact hout.char j hj2 hjf
    · rw [List.mem_singleton] at hj2
      subst hj2
      exact hsminv_a
  · -- delta_none
    intro hdn
    exfalso
    by_cases hc : fLt (s.minv a) s1.delta = true
    · rw [if_pos hc] at hdelta
      rw [hdelta.1] at hdn
      exact hsa_ne hdn
    · rw [if_neg hc] at hdelta
      rw [hdelta.1] at hdn
      rw [hdn] at hc
      exact hc (fLt_none_right.mpr hsa_ne)
  · -- delta_some
    intro hds
    by_cases hc : fLt (s.minv a) s1.delta = true
    · rw [if_pos hc] at hdelta
      refine ⟨?_, ?_, ?_⟩
      · rw [hdelta.2]
        exact List.mem_append_right _ (List.mem_singleton_self a)
      · rw [hdelta.2]
        exact hau
      · rw [hdelta.1, hdelta.2]
    · rw [if_neg hc] at hdelta
      have hds1 : s1.delta ≠ none := fun h => hds (hdelta.1.trans h)
      obtain ⟨hj1, hju1, hde⟩ := hout.delta_some hds1
      have hj1a : s1.j1 ≠ a := fun he => hai (he ▸ hj1)
      refine ⟨hdelta.2 ▸ List.mem_append_left _ hj1, hdelta.2 ▸ hju1, ?_⟩
      rw [hdelta.1, hdelta.2, hde, (hother s1.j1 hj1a).1]
  · -- delta_min
    intro j hj hjf
    rcases List.mem_append.mp hj with hj2 | hj2
    · have hja : j ≠ a := fun he => hai (he ▸ hj2)
      have hold := hout.delta_min j hj2 hjf
      rw [(hother j hja).1]
      by_cases hc : fLt (s.minv a) s1.delta = true
      · rw [if_pos hc] at hdelta
        rw [hdelta.1]
        by_contra hcon
        rw [Bool.not_eq_false] at hcon
        have := fLt_trans hcon hc
        rw [this] at hold
        cases hold
      · rw [if_neg hc] at hdelta
        rw [hdelta.1]
        exact hold
    · rw [List.mem_singleton] at hj2
      subst hj2
      by_cases hc : fLt (s.minv j) s1.delta = true
      · rw [if_pos hc] at hdelta
        rw [hdelta.1]
        exact fLt_irrefl _
      · rw [if_neg hc] at hdelta
        rw [hdelta.1]
        exact Bool.not_eq_true _ ▸ hc

theorem scanCols_fold_spec (cost : List α) (size i0 j0 : ℕ) (u v : ℕ → α)
    (used : ℕ → Bool) :
    ∀ js : List ℕ, js.Nodup →
      (∀ j ∈ js, (i0 - 1) * size + (j - 1) < cost.length) →
      ∀ s0 : ScanSt α, s0.delta = none →
        ∃ s : ScanSt α, js.foldlM (scanStep cost size i0 j0 u v used) s0 = some s ∧
          ScanOut cost size i0 j0 u v used s0 s js := by
  intro js
  induction js using List.reverseRecOn with
  | nil =>
    intro _ _ s0 hd0
    refine ⟨s0, rfl, ?_⟩
    exact ⟨fun j _ => ⟨rfl, rfl⟩, fun j hj _ => absurd hj (List.not_mem_nil j),
      fun _ j hj => absurd hj (List.not_mem_nil j),
      fun hne => absurd hd0 hne, fun j hj _ => absurd hj (List.not_mem_nil j)⟩
  | append_singleton init a ih =>
    intro hnd hacc s0 hd0
    rw [List.nodup_append] at hnd
    have hndi : init.Nodup := hnd.1
    have hai : a ∉ init := fun h => hnd.2.2 h (List.mem_singleton_self a)
    obtain ⟨s1, hfold, hout⟩ := ih hndi (fun j hj => hacc j (List.mem_append_left _ hj)) s0 hd0
    by_cases hau : used a = true
    · refine ⟨s1, ?_, ?_⟩
      · rw [List.foldlM_append, hfold, bind_some_eq, List.foldlM_cons,
          show scanStep cost size i0 j0 u v used s1 a = some s1 by
            unfold scanStep
            rw [if_pos hau], bind_some_eq, List.foldlM_nil]
        rfl
      · refine ⟨?_, ?_, ?_, ?_, ?_⟩
        · intro j hj
          refine hout.untouched j ?_
          rcases hj with hju | hjm
          · exact Or.inl hju
          · exact Or.inr (fun h => hjm (List.mem_append_left _ h))
        · intro j hj hjf
          rcases List.mem_append.mp hj with hj2 | hj2
          · exact hout.char j hj2 hjf
          · rw [List.mem_singleton] at hj2
            subst hj2
            rw [hjf] at hau
            cases hau
        · intro hdn j hj
          rcases List.mem_append.mp hj with hj2 | hj2
          · exact hout.delta_none hdn j hj2
          · rw [List.mem_singleton] at hj2
            subst hj2
            exact hau
        · intro hds
          obtain ⟨hj1, hju1, hde⟩ := hout.delta_some hds
          exact ⟨List.mem_append_left _ hj1, hju1, hde⟩
        · intro j hj hjf
          rcases List.mem_append.mp hj with hj2 | hj2
          · exact hout.delta_min j hj2 hjf
          · rw [List.mem_singleton] at hj2
            subst hj2
            rw [hjf] at hau
            cases hau
    · have hau2 : used a = false := by
        cases h : used a
        · rfl
        · exact absurd h hau
      have hlt : (i0 - 1) * size + (a - 1) < cost.length :=
        hacc a (List.mem_append_right _ (List.mem_singleton_self a))
      have hw : redCost cost size i0 u v a =
          cost.getD ((i0 - 1) * size + (a - 1)) 0 - u i0 - v a := rfl
      by_cases h1 : fLt (some (cost.getD ((i0 - 1) * size + (a - 1)) 0 - u i0 - v a))
          (s1.minv a) = true
      · by_cases h2 : fLt (some (cost.getD ((i0 - 1) * size + (a - 1)) 0 - u i0 - v a))
            s1.delta = true
        · refine ⟨⟨Function.update s1.minv a
              (some (cost.getD ((i0 - 1) * size + (a - 1)) 0 - u i0 - v a)),
            Function.update s1.way a j0,
            some (cost.getD ((i0 - 1) * size + (a - 1)) 0 - u i0 - v a), a⟩, ?_, ?_⟩
          · rw [List.foldlM_append, hfold, bind_some_eq, List.foldlM_cons]
            have hstep : scanStep cost size i0 j0 u v used s1 a =
                some ⟨Function.update s1.minv a
                    (some (cost.getD ((i0 - 1) * size + (a - 1)) 0 - u i0 - v a)),
                  Function.update s1.way a j0,
                  some (cost.getD ((i0 - 1) * size + (a - 1)) 0 - u i0 - v a), a⟩ := by
              unfold scanStep
              rw [if_neg (by rw [hau2]; exact Bool.false_ne_true),
                getElem?_eq_some_getD 0 hlt]
              dsimp only
              rw [if_pos h1]
              dsimp only
              rw [Function.update_same, if_pos h2]
            rw [hstep, bind_some_eq, List.foldlM_nil]
            rfl
          · refine ScanOut.snoc cost size i0 j0 u v used s0 s1 _ init a hout hai hau2 ?_ ?_ ?_
            · rw [hw]
              rw [if_pos h1]
              dsimp only
              exact ⟨Function.update_same _ _ _, Function.update_same _ _ _⟩
            · intro j hja
              dsimp only
              exact ⟨Function.update_noteq hja _ _, Function.update_noteq hja _ _⟩
            · dsimp only
              rw [Function.update_same, if_pos h2]
              exact ⟨rfl, rfl⟩
        · refine ⟨⟨Function.update s1.minv a
              (some (cost.getD ((i0 - 1) * size + (a - 1)) 0 - u i0 - v a)),
            Function.update s1.way a j0, s1.delta, s1.j1⟩, ?_, ?_⟩
          · rw [List.foldlM_append, hfold, bind_some_eq, List.foldlM_cons]
            have hstep : scanStep cost size i0 j0 u v used s1 a =
                some ⟨Function.update s1.minv a
                    (some (cost.getD ((i0 - 1) * size + (a - 1)) 0 - u i0 - v a)),
                  Function.update s1.way a j0, s1.delta, s1.j1⟩ := by
              unfold scanStep
              rw [if_neg (by rw [hau2]; exact Bool.false_ne_true),
                getElem?_eq_some_getD 0 hlt]
              dsimp only
              rw [if_pos h1]
              dsimp only
              rw [Function.update_same, if_neg h2]
            rw [hstep, bind_some_eq, List.foldlM_nil]
            rfl
          · refine ScanOut.snoc cost size i0 j0 u v used s0 s1 _ init a hout hai hau2 ?_ ?_ ?_
            · rw [hw]
              rw [if_pos h1]
              dsimp only
              exact ⟨Function.update_same _ _ _, Function.update_same _ _ _⟩
            · intro j hja
              dsimp only
              exact ⟨Function.update_noteq hja _ _, Function.update_noteq hja _ _⟩
            · dsimp only
              rw [Function.update_same, if_neg h2]
              exact ⟨rfl, rfl⟩
      · by_cases h2 : fLt (s1.minv a) s1.delta = true
        · refine ⟨⟨s1.minv, s1.way, s1.minv a, a⟩, ?_, ?_⟩
          · rw [List.foldlM_append, hfold, bind_some_eq, List.foldlM_cons]
            have hstep : scanStep cost size i0 j0 u v used s1 a =
                some ⟨s1.minv, s1.way, s1.minv a, a⟩ := by
              unfold scanStep
              rw [if_neg (by rw [hau2]; exact Bool.false_ne_true),
                getElem?_eq_some_getD 0 hlt]
              dsimp only
              rw [if_neg h1]
              rw [if_pos h2]
            rw [hstep, bind_some_eq, List.foldlM_nil]
            rfl
          · refine ScanOut.snoc cost size i0 j0 u v used s0 s1 _ init a hout hai hau2 ?_ ?_ ?_
            · rw [hw, if_neg h1]
              exact ⟨rfl, rfl⟩
            · intro j hja
              exact ⟨rfl, rfl⟩
            · dsimp only
              rw [if_pos h2]
              exact ⟨rfl, rfl⟩
        · refine ⟨s1, ?_, ?_⟩
          · rw [List.foldlM_append, hfold, bind_some_eq, List.foldlM_cons]
            have hstep : scanStep cost size i0 j0 u v used s1 a = some s1 := by
              unfold scanStep
              rw [if_neg (by rw [hau2]; exact Bool.false_ne_true),
                getElem?_eq_some_getD 0 hlt]
              dsimp only
              rw [if_neg h1]
              rw [if_neg h2]
            rw [hstep, bind_some_eq, List.foldlM_nil]
            rfl
          · refine ScanOut.snoc cost size i0 j0 u v used s0 s1 s1 init a hout hai hau2 ?_ ?_ ?_
            · rw [hw, if_neg h1]
              exact ⟨rfl, rfl⟩
            · intro j hja
              exact ⟨rfl, rfl⟩
            · rw [if_neg h2]
              exact ⟨rfl, rfl⟩

theorem scanCols_spec (cost : List α) (size i0 j0 : ℕ) (u v : ℕ → α) (used : ℕ → Bool)
    (s0 : ScanSt α) (hd0 : s0.delta = none)
    (hlen : cost.length = size * size) (hi0a : 1 ≤ i0) (hi0b : i0 ≤ size) :
    ∃ s : ScanSt α, scanCols cost size i0 j0 u v used s0 = some s ∧
      ScanOut cost size i0 j0 u v used s0 s (List.range' 1 size) := by
  obtain ⟨s, hfold, hout⟩ := scanCols_fold_spec cost size i0 j0 u v used
    (List.range' 1 size) (List.nodup_range' 1 size)
    (by
      intro j hj
      obtain ⟨i2, hi2, rfl⟩ := List.mem_range'.mp hj
      rw [hlen]
      apply cell_lt
      · omega
      · omega) s0 hd0
  exact ⟨s, hfold, hout⟩

/-! ### The potential-update loop -/

theorem updStep_eq_used (p : ℕ → ℕ) (used : ℕ → Bool) (d : α) (st : PotSt α) (a : ℕ)
    (h : used a = true) :
    updStep p used d st a =
      ⟨Function.update st.u (p a) (st.u (p a) + d), Function.update st.v a (st.v a - d),
        st.minv⟩ := by
  unfold updStep
  rw [if_pos h]

theorem updStep_eq_unused (p : ℕ → ℕ) (used : ℕ → Bool) (d : α) (st : PotSt α) (a : ℕ)
    (h : used a = false) :
    updStep p used d st a =
      ⟨st.u, st.v, Function.update st.minv a (fSub (st.minv a) d)⟩ := by
  unfold updStep
  rw [if_neg (by rw [h]; exact Bool.false_ne_true)]

theorem updatePots_fold_minv (p : ℕ → ℕ) (used : ℕ → Bool) (d : α) :
    ∀ js : List ℕ, js.Nodup → ∀ (st : PotSt α) (j : ℕ),
      (js.foldl (updStep p used d) st).minv j =
        if j ∈ js ∧ used j = false then fSub (st.minv j) d else st.minv j := by
  intro js
  induction js using List.reverseRecOn with
  | nil =>
    intro _ st j
    simp
  | append_singleton init a ih =>
    intro hnd st j
    rw [List.nodup_append] at hnd
    have hai : a ∉ init := fun h => hnd.2.2 h (List.mem_singleton_self a)
    rw [List.foldl_append, List.foldl_cons, List.foldl_nil]
    have ihj := ih hnd.1 st
    by_cases hua : used a = true
    · rw [updStep_eq_used p used d _ a hua]
      dsimp only
      rw [ihj j]
      by_cases hj : j ∈ init ∧ used j = false
      · rw [if_pos hj, if_pos ⟨List.mem_append_left _ hj.1, hj.2⟩]
      · rw [if_neg hj, if_neg ?_]
        intro hcon
        rcases List.mem_append.mp hcon.1 with h2 | h2
        · exact hj ⟨h2, hcon.2⟩
        · rw [List.mem_singleton] at h2
          subst h2
          rw [hua] at hcon
          cases hcon.2
    · have hua2 : used a = false := by
        cases h : used a
        · rfl
        · exact absurd h hua
      rw [updStep_eq_unused p used d _ a hua2]
      dsimp only
      by_cases hja : j = a
      · subst hja
        rw [Function.update_same, ihj j, if_neg (fun hcon => hai hcon.1),
          if_pos ⟨List.mem_append_right _ (List.mem_singleton_self j), hua2⟩]
      · rw [Function.update_noteq hja, ihj j]
        by_cases hj : j ∈ init ∧ used j = false
        · rw [if_pos hj, if_pos ⟨List.mem_append_left _ hj.1, hj.2⟩]
        · rw [if_neg hj, if_neg ?_]
          intro hcon
          rcases List.mem_append.mp hcon.1 with h2 | h2
          · exact hj ⟨h2, hcon.2⟩
          · rw [List.mem_singleton] at h2
            exact hja h2

theorem updatePots_minv (size : ℕ) (p : ℕ → ℕ) (used : ℕ → Bool) (d : α)
    (st : PotSt α) (j : ℕ) :
    (updatePots size p used d st).minv j =
      if j ≤ size ∧ used j = false then fSub (st.minv j) d else st.minv j := by
  unfold updatePots
  rw [updatePots_fold_minv p used d (List.range (size + 1)) (List.nodup_range _) st j]
  simp only [List.mem_range, Nat.lt_succ_iff]

theorem updatePots_fold_v (p : ℕ → ℕ) (used : ℕ → Bool) (d : α) :
    ∀ js : List ℕ, js.Nodup → ∀ (st : PotSt α) (j : ℕ),
      (js.foldl (updStep p used d) st).v j =
        if j ∈ js ∧ used j = true then st.v j - d else st.v j := by
  intro js
  induction js using List.reverseRecOn with
  | nil =>
    intro _ st j
    simp
  | append_singleton init a ih =>
    intro hnd st j
    rw [List.nodup_append] at hnd
    have hai : a ∉ init := fun h => hnd.2.2 h (List.mem_singleton_self a)
    rw [List.foldl_append, List.foldl_cons, List.foldl_nil]
    have ihj := ih hnd.1 st
    by_cases hua : used a = true
    · rw [updStep_eq_used p used d _ a hua]
      dsimp only
      by_cases hja : j = a
      · subst hja
        rw [Function.update_same, ihj j, if_neg (fun hcon => hai hcon.1),
          if_pos ⟨List.mem_append_right _ (List.mem_singleton_self j), hua⟩]
      · rw [Function.update_noteq hja, ihj j]
        by_cases hj : j ∈ init ∧ used j = true
        · rw [if_pos hj, if_pos ⟨List.mem_append_left _ hj.1, hj.2⟩]
        · rw [if_neg hj, if_neg ?_]
          intro hcon
          rcases List.mem_append.mp hcon.1 with h2 | h2
          · exact hj ⟨h2, hcon.2⟩
          · rw [List.mem_singleton] at h2
            exact hja h2
    · have hua2 : used a = false := by
        cases h : used a
        · rfl
        · exact absurd h hua
      rw [updStep_eq_unused p used d _ a hua2]
      dsimp only
      rw [ihj j]
      by_cases hj : j ∈ init ∧ used j = true
      · rw [if_pos hj, if_pos ⟨List.mem_append_left _ hj.1, hj.2⟩]
      · rw [if_neg hj, if_neg ?_]
        intro hcon
        rcases List.mem_append.mp hcon.1 with h2 | h2
        · exact hj ⟨h2, hcon.2⟩
        · rw [List.mem_singleton] at h2
          subst h2
          rw [hua2] at hcon
          cases hcon.2

theorem updatePots_v (size : ℕ) (p : ℕ → ℕ) (used : ℕ → Bool) (d : α)
    (st : PotSt α) (j : ℕ) :
    (updatePots size p used d st).v j =
      if j ≤ size ∧ used j = true then st.v j - d else st.v j := by
  unfold updatePots
  rw [updatePots_fold_v p used d (List.range (size + 1)) (List.nodup_range _) st j]
  simp only [List.mem_range, Nat.lt_succ_iff]

theorem updatePots_fold_u (p : ℕ → ℕ) (used : ℕ → Bool) (d : α) :
    ∀ js : List ℕ, js.Nodup →
      (∀ j1 ∈ js, ∀ j2 ∈ js, used j1 = true → used j2 = true → p j1 = p j2 → j1 = j2) →
      ∀ (st : PotSt α) (i : ℕ),
        ((∃ j ∈ js, used j = true ∧ p j = i) →
          (js.foldl (updStep p used d) st).u i = st.u i + d) ∧
        ((∀ j ∈ js, used j = true → p j ≠ i) →
          (js.foldl (updStep p used d) st).u i = st.u i) := by
  intro js
  induction js using List.reverseRecOn with
  | nil =>
    intro _ _ st i
    exact ⟨fun ⟨j, hj, _⟩ => absurd hj (List.not_mem_nil j), fun _ => rfl⟩
  | append_singleton init a ih =>
    intro hnd hinj st i
    rw [List.nodup_append] at hnd
    have hai : a ∉ init := fun h => hnd.2.2 h (List.mem_singleton_self a)
    have hinj2 : ∀ j1 ∈ init, ∀ j2 ∈ init, used j1 = true → used j2 = true →
        p j1 = p j2 → j1 = j2 := fun j1 h1 j2 h2 =>
      hinj j1 (List.mem_append_left _ h1) j2 (List.mem_append_left _ h2)
    have hamem : a ∈ init ++ [a] := List.mem_append_right _ (List.mem_singleton_self a)
    have ihst := ih hnd.1 hinj2 st
    rw [List.foldl_append, List.foldl_cons, List.foldl_nil]
    by_cases hua : used a = true
    · rw [updStep_eq_used p used d _ a hua]
      dsimp only
      constructor
      · rintro ⟨j, hj, hju, hpj⟩
        rcases List.mem_append.mp hj with hj2 | hj2
        · have hpa : p a ≠ i := by
            intro h
            rw [← hpj] at h
            have := hinj a hamem j (List.mem_append_left _ hj2) hua hju h
            exact hai (this ▸ hj2)
          rw [Function.update_noteq (Ne.symm hpa)]
          exact (ih hnd.1 hinj2 st i).1 ⟨j, hj2, hju, hpj⟩
        · rw [List.mem_singleton] at hj2
          subst hj2
          subst hpj
          rw [Function.update_same]
          have hne : ∀ j2 ∈ init, used j2 = true → p j2 ≠ p j := by
            intro j2 h2 h2u hcon
            have := hinj j2 (List.mem_append_left _ h2) j hamem h2u hua hcon
            exact hai (this ▸ h2)
          rw [(ih hnd.1 hinj2 st (p j)).2 hne]
      · intro hno
        have hpa : p a ≠ i := hno a hamem hua
        rw [Function.update_noteq (Ne.symm hpa)]
        exact (ihst i).2 (fun j hj => hno j (List.mem_append_left _ hj))
    · have hua2 : used a = false := by
        cases h : used a
        · rfl
        · exact absurd h hua
      rw [updStep_eq_unused p used d _ a hua2]
      dsimp only
      constructor
      · rintro ⟨j, hj, hju, hpj⟩
        rcases List.mem_append.mp hj with hj2 | hj2
        · exact (ihst i).1 ⟨j, hj2, hju, hpj⟩
        · rw [List.mem_singleton] at hj2
          subst hj2
          rw [hju] at hua2
          cases hua2
      · intro hno
        exact (ihst i).2 (fun j hj => hno j (List.mem_append_left _ hj))

theorem updatePots_u (size : ℕ) (p : ℕ → ℕ) (used : ℕ → Bool) (d : α)
    (hinj : ∀ j1 j2, j1 ≤ size → j2 ≤ size → used j1 = true → used j2 = true →
      p j1 = p j2 → j1 = j2)
    (st : PotSt α) (i : ℕ) :
    ((∃ j, j ≤ size ∧ used j = true ∧ p j = i) →
      (updatePots size p used d st).u i = st.u i + d) ∧
    ((∀ j, j ≤ size → used j = true → p j ≠ i) →
      (updatePots size p used d st).u i = st.u i) := by
  unfold updatePots
  have h := updatePots_fold_u p used d (List.range (size + 1)) (List.nodup_range _)
    (by
      intro j1 h1 j2 h2
      rw [List.mem_range, Nat.lt_succ_iff] at h1 h2
      exact hinj j1 j2 h1 h2) st i
  constructor
  · rintro ⟨j, hj, hju, hpj⟩
    exact h.1 ⟨j, List.mem_range.mpr (by omega), hju, hpj⟩
  · intro hno
    refine h.2 ?_
    intro j hj
    rw [List.mem_range, Nat.lt_succ_iff] at hj
    exact hno j hj

/-! ### The augmenting-path search loop -/

theorem fSub_none (d : α) : fSub none d = none := rfl

theorem fSub_some (a d : α) : fSub (some a) d = some (a - d) := rfl

theorem augment_spec (cost : List α) (size : ℕ) (p : ℕ → ℕ)
    (hlen : cost.length = size * size) (hple : ∀ j, p j ≤ size)
    (hcard : (Mset p size).card < size) (k : ℕ)
    (hpinj : Set.InjOn p ↑(Mset p size))
    (himg : Finset.image p (Mset p size) = Finset.Icc 1 k)
    (hp0 : p 0 = k + 1) :
    ∀ fuel : ℕ, ∀ (st : InnerSt α) (L : List ℕ), InnerInv size p st L →
      DualInner cost size k p st L →
      (Mset p size \ insert st.j0 L.toFinset).card < fuel →
      ∃ (st2 : InnerSt α) (L2 : List ℕ),
        augment cost size p fuel st = some st2 ∧
        PathEnd size p st2.way st2.j0 L2 ∧
        DualEnd cost size k p st2 L2 := by
  intro fuel
  induction fuel with
  | zero =>
    intro st L hinv hdual hfuel
    exact absurd hfuel (by omega)
  | succ fuel ih =>
    intro st L hinv hdual hfuel
    have hi0a : 1 ≤ p st.j0 := Nat.pos_of_ne_zero hinv.j0_matched
    have hi0b : p st.j0 ≤ size := hple st.j0
    obtain ⟨s, hscan, hout⟩ := scanCols_spec cost size (p st.j0) st.j0 st.u st.v
      (Function.update st.used st.j0 true) ⟨st.minv, st.way, none, 0⟩ rfl hlen hi0a hi0b
    have hnodup2 : (L ++ [st.j0]).Nodup := by
      rw [List.nodup_append]
      refine ⟨hinv.nodupL, List.nodup_singleton _, ?_⟩
      intro x hx hx2
      rw [List.mem_singleton] at hx2
      subst hx2
      exact hinv.j0_not_mem hx
    have hused1_iff : ∀ j, Function.update st.used st.j0 true j = true ↔
        j ∈ L ++ [st.j0] := by
      intro j
      by_cases hj : j = st.j0
      · subst hj
        rw [Function.update_same]
        simp
      · rw [Function.update_noteq hj, hinv.used_iff j]
        constructor
        · intro h
          exact List.mem_append_left _ h
        · intro h
          rcases List.mem_append.mp h with h2 | h2
          · exact h2
          · rw [List.mem_singleton] at h2
            exact absurd h2 hj
    have hfirst2 : ∀ hk : 0 < (L ++ [st.j0]).length, (L ++ [st.j0])[0] = 0 := by
      intro hk
      by_cases hL : L = []
      · subst hL
        simp [hinv.empty_j0 rfl]
      · have hLpos : 0 < L.length := List.length_pos.mpr hL
        rw [List.getElem_append, dif_pos hLpos]
        exact hinv.first_zero hLpos
    have hzero_mem : (0 : ℕ) ∈ L ++ [st.j0] := by
      by_cases hL : L = []
      · rw [hinv.empty_j0 hL, hL]
        simp
      · have hLpos : 0 < L.length := List.length_pos.mpr hL
        have hm := List.getElem_mem hLpos
        rw [hinv.first_zero hLpos] at hm
        exact List.mem_append_left _ hm
    have hmem2_le : ∀ x ∈ L ++ [st.j0], x ≤ size := by
      intro x hx
      rcases List.mem_append.mp hx with h2 | h2
      · exact hinv.memL_le x h2
      · rw [List.mem_singleton] at h2
        subst h2
        exact hinv.j0_le
    have hmatched2 : ∀ x ∈ L ++ [st.j0], x ≠ 0 → p x ≠ 0 := by
      intro x hx hx0
      rcases List.mem_append.mp hx with h2 | h2
      · exact hinv.Lmatched x h2 hx0
      · rw [List.mem_singleton] at h2
        subst h2
        exact hinv.j0_matched
    have hLsubM : ∀ x ∈ L ++ [st.j0], x = 0 ∨ x ∈ Mset p size := by
      intro x hx
      by_cases hx0 : x = 0
      · exact Or.inl hx0
      · refine Or.inr (Finset.mem_filter.mpr ⟨Finset.mem_Icc.mpr ⟨by omega, hmem2_le x hx⟩,
          hmatched2 x hx hx0⟩)
    have hexists : ∃ jm, jm ∈ List.range' 1 size ∧
        Function.update st.used st.j0 true jm = false := by
      have hsub : Mset p size ⊆ Finset.Icc 1 size := Finset.filter_subset _ _
      have hne : (Finset.Icc 1 size \ Mset p size).Nonempty := by
        rw [← Finset.card_pos, Finset.card_sdiff hsub, Nat.card_Icc]
        omega
      obtain ⟨jm, hjm⟩ := hne
      rw [Finset.mem_sdiff, Finset.mem_Icc] at hjm
      refine ⟨jm, List.mem_range'.mpr ⟨jm - 1, by omega, by omega⟩, ?_⟩
      cases h : Function.update st.used st.j0 true jm
      · rfl
      · exfalso
        rcases hLsubM jm ((hused1_iff jm).mp h) with h0 | hM
        · omega
        · exact hjm.2 hM
    have hdne : s.delta ≠ none := by
      intro hdn
      obtain ⟨jm, hjm, hju⟩ := hexists
      have h2 := hout.delta_none hdn jm hjm
      rw [h2] at hju
      cases hju
    obtain ⟨hj1mem, hj1unused, hdeq⟩ := hout.delta_some hdne
    obtain ⟨jrange, hjr, hj1eq⟩ := List.mem_range'.mp hj1mem
    have hj1a : 1 ≤ s.j1 := by omega
    have hj1b : s.j1 ≤ size := by omega
    have hj1notmem : s.j1 ∉ L ++ [st.j0] := by
      intro h
      rw [← hused1_iff s.j1] at h
      rw [h] at hj1unused
      cases hj1unused
    cases hd : s.delta with
    | none => exact absurd hd hdne
    | some d =>
    have hminv_j1 : s.minv s.j1 = some d := by
      rw [← hdeq, hd]
    have hway_mem : ∀ j, j ∉ L ++ [st.j0] → s.minv j ≠ none →
        s.way j ∈ L ++ [st.j0] := by
      intro j hjL hjm
      by_cases hjrange : j ∈ List.range' 1 size
      · have hju : Function.update st.used st.j0 true j = false := by
          cases h : Function.update st.used st.j0 true j
          · rfl
          · exact absurd ((hused1_iff j).mp h) hjL
        have hchar : if fLt (some (redCost cost size (p st.j0) st.u st.v j))
              (st.minv j) = true
            then s.minv j = some (redCost cost size (p st.j0) st.u st.v j) ∧
              s.way j = st.j0
            else s.minv j = st.minv j ∧ s.way j = st.way j :=
          hout.char j hjrange hju
        by_cases hc : fLt (some (redCost cost size (p st.j0) st.u st.v j))
            (st.minv j) = true
        · rw [if_pos hc] at hchar
          rw [hchar.2]
          exact List.mem_append_right _ (List.mem_singleton_self _)
        · rw [if_neg hc] at hchar
          rw [hchar.2]
          refine List.mem_append_left _ (hinv.minv_way j ?_ ?_)
          · intro h
            exact hjL (List.mem_append_left _ h)
          · rw [← hchar.1]
            exact hjm
      · have hunt : s.minv j = st.minv j ∧ s.way j = st.way j :=
          hout.untouched j (Or.inr hjrange)
        rw [hunt.2]
        refine List.mem_append_left _ (hinv.minv_way j ?_ ?_)
        · intro h
          exact hjL (List.mem_append_left _ h)
        · rw [← hunt.1]
          exact hjm
    have hway_dec2 : ∀ k, (hk : k < (L ++ [st.j0]).length) → 0 < k →
        s.way (L ++ [st.j0])[k] ∈ (L ++ [st.j0]).take k := by
      intro k hk hk0
      by_cases hkL : k < L.length
      · have he : (L ++ [st.j0])[k] = L[k] := by
          rw [List.getElem_append, dif_pos hkL]
        have hmem : L[k] ∈ L := List.getElem_mem hkL
        have huse : Function.update st.used st.j0 true L[k] = true :=
          (hused1_iff L[k]).mpr (List.mem_append_left _ hmem)
        have hunt : s.minv L[k] = st.minv L[k] ∧ s.way L[k] = st.way L[k] :=
          hout.untouched L[k] (Or.inl huse)
        have htake : (L ++ [st.j0]).take k = L.take k := by
          rw [List.take_append_eq_append_take]
          have h0 : k - L.length = 0 := by omega
          rw [h0]
          simp
        rw [he, hunt.2, htake]
        exact hinv.way_dec k hkL hk0
      · have hkeq : k = L.length := by
          have := hk
          simp only [List.length_append, List.length_singleton] at this
          omega
        subst hkeq
        have he : (L ++ [st.j0])[L.length] = st.j0 := by
          rw [List.getElem_append, dif_neg (by omega)]
          simp
        have hLpos : 0 < L.length := hk0
        have hj0ne : st.j0 ≠ 0 := by
          intro h
          have h0L : (0 : ℕ) ∈ L := by
            have hm := List.getElem_mem hLpos
            rw [hinv.first_zero hLpos] at hm
            exact hm
          rw [← h] at h0L
          exact hinv.j0_not_mem h0L
        have htake : (L ++ [st.j0]).take L.length = L := by
          rw [List.take_append_eq_append_take]
          simp
        have huse : Function.update st.used st.j0 true st.j0 = true :=
          Function.update_same _ _ _
        have hunt : s.minv st.j0 = st.minv st.j0 ∧ s.way st.j0 = st.way st.j0 :=
          hout.untouched st.j0 (Or.inl huse)
        rw [he, hunt.2, htake]
        exact hinv.minv_way st.j0 hinv.j0_not_mem (hinv.j0_minv hj0ne)
    -- dual bookkeeping: membership and injectivity of the tree rows
    have hxMset : ∀ x ∈ L ++ [st.j0], x ≠ 0 → x ∈ Mset p size := by
      intro x hx hx0
      rcases hLsubM x hx with h0 | hM
      · exact absurd h0 hx0
      · exact hM
    have hpicc : ∀ x ∈ L ++ [st.j0], x ≠ 0 → p x ∈ Finset.Icc 1 k := by
      intro x hx hx0
      rw [← himg]
      exact Finset.mem_image_of_mem p (hxMset x hx hx0)
    have hp_inj1 : ∀ j1 ∈ L ++ [st.j0], ∀ j2 ∈ L ++ [st.j0], p j1 = p j2 → j1 = j2 := by
      intro j1 h1 j2 h2 heq
      by_cases h10 : j1 = 0
      · by_cases h20 : j2 = 0
        · rw [h10, h20]
        · exfalso
          have hj2I := hpicc j2 h2 h20
          rw [Finset.mem_Icc] at hj2I
          rw [h10, hp0] at heq
          omega
      · by_cases h20 : j2 = 0
        · exfalso
          have hj1I := hpicc j1 h1 h10
          rw [Finset.mem_Icc] at hj1I
          rw [h20, hp0] at heq
          omega
        · exact hpinj (Finset.mem_coe.mpr (hxMset j1 h1 h10))
            (Finset.mem_coe.mpr (hxMset j2 h2 h20)) heq
    have hupd_inj : ∀ j1 j2, j1 ≤ size → j2 ≤ size →
        Function.update st.used st.j0 true j1 = true →
        Function.update st.used st.j0 true j2 = true → p j1 = p j2 → j1 = j2 := by
      intro j1 j2 _ _ hu1 hu2
      exact hp_inj1 j1 ((hused1_iff j1).mp hu1) j2 ((hused1_iff j2).mp hu2)
    -- characterisation of the updated potentials
    have hu_mem : ∀ x ∈ L ++ [st.j0],
        (updatePots size p (Function.update st.used st.j0 true) d
          ⟨st.u, st.v, s.minv⟩).u (p x) = st.u (p x) + d := by
      intro x hx
      exact (updatePots_u size p _ d hupd_inj ⟨st.u, st.v, s.minv⟩ (p x)).1
        ⟨x, hmem2_le x hx, (hused1_iff x).mpr hx, rfl⟩
    have hu_not : ∀ i, (∀ x ∈ L ++ [st.j0], p x ≠ i) →
        (updatePots size p (Function.update st.used st.j0 true) d
          ⟨st.u, st.v, s.minv⟩).u i = st.u i := by
      intro i hno
      refine (updatePots_u size p _ d hupd_inj ⟨st.u, st.v, s.minv⟩ i).2 ?_
      intro j _ hju
      exact hno j ((hused1_iff j).mp hju)
    have hv_used : ∀ x ∈ L ++ [st.j0],
        (updatePots size p (Function.update st.used st.j0 true) d
          ⟨st.u, st.v, s.minv⟩).v x = st.v x - d := by
      intro x hx
      rw [updatePots_v, if_pos ⟨hmem2_le x hx, (hused1_iff x).mpr hx⟩]
    have hv_unused : ∀ x, x ∉ L ++ [st.j0] →
        (updatePots size p (Function.update st.used st.j0 true) d
          ⟨st.u, st.v, s.minv⟩).v x = st.v x := by
      intro x hx
      rw [updatePots_v, if_neg ?_]
      rintro ⟨_, hu⟩
      exact hx ((hused1_iff x).mp hu)
    -- the scanned tracker bounds every tree edge from below
    have hsmin_lb : ∀ j, 1 ≤ j → j ≤ size → j ∉ L ++ [st.j0] → ∀ jt ∈ L ++ [st.j0],
        fLt (some (redCost cost size (p jt) st.u st.v j)) (s.minv j) = false := by
      intro j hja hjb hjL jt hjt
      have hju : Function.update st.used st.j0 true j = false := by
        cases h : Function.update st.used st.j0 true j
        · rfl
        · exact absurd ((hused1_iff j).mp h) hjL
      have hjr : j ∈ List.range' 1 size := List.mem_range'.mpr ⟨j - 1, by omega, by omega⟩
      have hchar : if fLt (some (redCost cost size (p st.j0) st.u st.v j))
            (st.minv j) = true
          then s.minv j = some (redCost cost size (p st.j0) st.u st.v j) ∧ s.way j = st.j0
          else s.minv j = st.minv j ∧ s.way j = st.way j := hout.char j hjr hju
      have hjnotL : j ∉ L := fun h => hjL (List.mem_append_left _ h)
      have hjnej0 : j ≠ st.j0 := by
        intro h
        rw [h] at hjL
        exact hjL (List.mem_append_right _ (List.mem_singleton_self st.j0))
      by_cases hc : fLt (some (redCost cost size (p st.j0) st.u st.v j)) (st.minv j) = true
      · rw [if_pos hc] at hchar
        rw [hchar.1]
        rcases List.mem_append.mp hjt with hjt2 | hjt2
        · exact fLt_false_of_lt_of_false hc
            (hdual.minv_lb j hja hjb hjnotL hjnej0 jt hjt2)
        · rw [List.mem_singleton] at hjt2
          subst hjt2
          exact fLt_irrefl _
      · rw [if_neg hc] at hchar
        rw [hchar.1]
        rcases List.mem_append.mp hjt with hjt2 | hjt2
        · exact hdual.minv_lb j hja hjb hjnotL hjnej0 jt hjt2
        · rw [List.mem_singleton] at hjt2
          subst hjt2
          cases h : fLt (some (redCost cost size (p st.j0) st.u st.v j)) (st.minv j)
          · rfl
          · exact absurd h hc
    -- the minimum of this iteration is realised through a recorded tree edge
    have hj1wayT : s.way s.j1 ∈ L ++ [st.j0] ∧
        d = redCost cost size (p (s.way s.j1)) st.u st.v s.j1 := by
      have hchar : if fLt (some (redCost cost size (p st.j0) st.u st.v s.j1))
            (st.minv s.j1) = true
          then s.minv s.j1 = some (redCost cost size (p st.j0) st.u st.v s.j1) ∧
            s.way s.j1 = st.j0
          else s.minv s.j1 = st.minv s.j1 ∧ s.way s.j1 = st.way s.j1 :=
        hout.char s.j1 hj1mem hj1unused
      by_cases hc : fLt (some (redCost cost size (p st.j0) st.u st.v s.j1))
          (st.minv s.j1) = true
      · rw [if_pos hc] at hchar
        constructor
        · rw [hchar.2]
          exact List.mem_append_right _ (List.mem_singleton_self st.j0)
        · rw [hchar.2]
          have h2 := hminv_j1
          rw [hchar.1] at h2
          injection h2 with h3
          exact h3.symm
      · rw [if_neg hc] at hchar
        have hj1nL : s.j1 ∉ L := fun h => hj1notmem (List.mem_append_left _ h)
        have hj1nej0 : s.j1 ≠ st.j0 := by
          intro h
          rw [h] at hj1notmem
          exact hj1notmem (List.mem_append_right _ (List.mem_singleton_self st.j0))
        have hmne : st.minv s.j1 ≠ none := by
          rw [← hchar.1, hminv_j1]
          exact Option.some_ne_none d
        have hmeq := hdual.minv_eq s.j1 hj1a hj1b hj1nL hj1nej0 hmne
        constructor
        · rw [hchar.2]
          exact List.mem_append_left _ (hinv.minv_way s.j1 hj1nL hmne)
        · rw [hchar.2]
          have h3 := hminv_j1
          rw [hchar.1, hmeq] at h3
          injection h3 with h4
          exact h4.symm
    have hd_nonneg : L ≠ [] → 0 ≤ d := by
      intro hLne
      obtain ⟨hwmem, hdval⟩ := hj1wayT
      rw [hdval, redCost_cell, red_nonneg_iff]
      by_cases hw0 : s.way s.j1 = 0
      · rw [hw0]
        exact hdual.feasCur hLne s.j1 (Finset.mem_Icc.mpr ⟨hj1a, hj1b⟩)
      · exact hdual.feasK (p (s.way s.j1)) (hpicc (s.way s.j1) hwmem hw0) s.j1
          (Finset.mem_Icc.mpr ⟨hj1a, hj1b⟩)
    have hLne_of_mem : ∀ j, 1 ≤ j → j ∈ L ++ [st.j0] → L ≠ [] := by
      intro j hja hjT hLnil
      have hj0z := hinv.empty_j0 hLnil
      rw [hLnil, hj0z] at hjT
      rw [List.nil_append, List.mem_singleton] at hjT
      omega
    -- preservation of feasibility on the processed rows
    have hfeasK1 : ∀ i ∈ Finset.Icc 1 k, ∀ j ∈ Finset.Icc 1 size,
        (updatePots size p (Function.update st.used st.j0 true) d
          ⟨st.u, st.v, s.minv⟩).u i +
        (updatePots size p (Function.update st.used st.j0 true) d
          ⟨st.u, st.v, s.minv⟩).v j ≤ cellCost cost size i j := by
      intro i hi j hj
      have hjI := hj
      rw [Finset.mem_Icc] at hj
      by_cases hiT : ∃ x ∈ L ++ [st.j0], p x = i
      · obtain ⟨x, hx, hpx⟩ := hiT
        have hui := hu_mem x hx
        rw [hpx] at hui
        rw [hui]
        by_cases hjT : j ∈ L ++ [st.j0]
        · rw [hv_used j hjT]
          have he : st.u i + d + (st.v j - d) = st.u i + st.v j := by abel
          rw [he]
          exact hdual.feasK i hi j hjI
        · rw [hv_unused j hjT]
          have hlb := hsmin_lb j hj.1 hj.2 hjT x hx
          have hju : Function.update st.used st.j0 true j = false := by
            cases h : Function.update st.used st.j0 true j
            · rfl
            · exact absurd ((hused1_iff j).mp h) hjT
          have hjr : j ∈ List.range' 1 size :=
            List.mem_range'.mpr ⟨j - 1, by omega, by omega⟩
          have hdm := hout.delta_min j hjr hju
          rw [hd] at hdm
          have hfin := fLt_false_trans hlb hdm
          rw [fLt_some_false_iff] at hfin
          rw [hpx, redCost_cell, le_red_iff] at hfin
          exact hfin
      · push_neg at hiT
        rw [hu_not i hiT]
        by_cases hjT : j ∈ L ++ [st.j0]
        · have hLne : L ≠ [] := hLne_of_mem j hj.1 hjT
          rw [hv_used j hjT]
          exact le_trans (add_le_add_left (sub_le_self _ (hd_nonneg hLne)) _)
            (hdual.feasK i hi j hjI)
        · rw [hv_unused j hjT]
          exact hdual.feasK i hi j hjI
    -- feasibility on the row being inserted
    have hfeasCur1 : ∀ j ∈ Finset.Icc 1 size,
        (updatePots size p (Function.update st.used st.j0 true) d
          ⟨st.u, st.v, s.minv⟩).u (p 0) +
        (updatePots size p (Function.update st.used st.j0 true) d
          ⟨st.u, st.v, s.minv⟩).v j ≤ cellCost cost size (p 0) j := by
      intro j hj
      have hjI := hj
      rw [Finset.mem_Icc] at hj
      rw [hu_mem 0 hzero_mem]
      by_cases hjT : j ∈ L ++ [st.j0]
      · have hLne : L ≠ [] := hLne_of_mem j hj.1 hjT
        rw [hv_used j hjT]
        have he : st.u (p 0) + d + (st.v j - d) = st.u (p 0) + st.v j := by abel
        rw [he]
        exact hdual.feasCur hLne j hjI
      · rw [hv_unused j hjT]
        have hlb := hsmin_lb j hj.1 hj.2 hjT 0 hzero_mem
        have hju : Function.update st.used st.j0 true j = false := by
          cases h : Function.update st.used st.j0 true j
          · rfl
          · exact absurd ((hused1_iff j).mp h) hjT
        have hjr : j ∈ List.range' 1 size :=
          List.mem_range'.mpr ⟨j - 1, by omega, by omega⟩
        have hdm := hout.delta_min j hjr hju
        rw [hd] at hdm
        have hfin := fLt_false_trans hlb hdm
        rw [fLt_some_false_iff, redCost_cell, le_red_iff] at hfin
        exact hfin
    -- preservation of tightness of the matched edges
    have htight1 : ∀ j ∈ Finset.Icc 1 size, p j ≠ 0 →
        (updatePots size p (Function.update st.used st.j0 true) d
          ⟨st.u, st.v, s.minv⟩).u (p j) +
        (updatePots size p (Function.update st.used st.j0 true) d
          ⟨st.u, st.v, s.minv⟩).v j = cellCost cost size (p j) j := by
      intro j hjI hpj
      have hj := hjI
      rw [Finset.mem_Icc] at hj
      by_cases hjT : j ∈ L ++ [st.j0]
      · rw [hu_mem j hjT, hv_used j hjT]
        have he : st.u (p j) + d + (st.v j - d) = st.u (p j) + st.v j := by abel
        rw [he]
        exact hdual.tight j hjI hpj
      · have hjM : j ∈ Mset p size :=
          Finset.mem_filter.mpr ⟨hjI, hpj⟩
        have hno : ∀ x ∈ L ++ [st.j0], p x ≠ p j := by
          intro x hx hcon
          by_cases hx0 : x = 0
          · rw [hx0, hp0] at hcon
            have hjimg := Finset.mem_image_of_mem p hjM
            rw [himg, ← hcon, Finset.mem_Icc] at hjimg
            omega
          · have hxeqj := hpinj (Finset.mem_coe.mpr (hxMset x hx hx0))
              (Finset.mem_coe.mpr hjM) hcon
            rw [hxeqj] at hx
            exact hjT hx
        rw [hu_not (p j) hno, hv_unused j hjT]
        exact hdual.tight j hjI hpj
    -- the predecessor of a tree column lies earlier in the tree
    have hway_in : ∀ j ∈ L ++ [st.j0], j ≠ 0 → st.way j ∈ L := by
      intro j hj hj0
      rcases List.mem_append.mp hj with hj2 | hj2
      · obtain ⟨idx, hidx, hidxeq⟩ := List.mem_iff_getElem.mp hj2
        have hidx0 : 0 < idx := by
          rcases Nat.eq_zero_or_pos idx with h0 | h0
          · exfalso
            subst h0
            rw [hinv.first_zero (by omega)] at hidxeq
            exact hj0 hidxeq.symm
          · exact h0
        have hwd := hinv.way_dec idx hidx hidx0
        rw [hidxeq] at hwd
        exact List.take_subset _ _ hwd
      · rw [List.mem_singleton] at hj2
        subst hj2
        exact hinv.minv_way st.j0 hinv.j0_not_mem (hinv.j0_minv hj0)
    -- preservation of tightness of the tree edges
    have hway_tight1 : ∀ j ∈ L ++ [st.j0], j ≠ 0 →
        (updatePots size p (Function.update st.used st.j0 true) d
          ⟨st.u, st.v, s.minv⟩).u (p (s.way j)) +
        (updatePots size p (Function.update st.used st.j0 true) d
          ⟨st.u, st.v, s.minv⟩).v j =
        cellCost cost size (p (s.way j)) j := by
      intro j hj hj0
      have huse : Function.update st.used st.j0 true j = true := (hused1_iff j).mpr hj
      have hunt : s.minv j = st.minv j ∧ s.way j = st.way j :=
        hout.untouched j (Or.inl huse)
      rw [hunt.2]
      have hwmem : st.way j ∈ L := hway_in j hj hj0
      rw [hu_mem (st.way j) (List.mem_append_left _ hwmem), hv_used j hj]
      have hold : st.u (p (st.way j)) + st.v j = cellCost cost size (p (st.way j)) j := by
        rcases List.mem_append.mp hj with hj2 | hj2
        · exact hdual.way_tight j hj2 hj0
        · rw [List.mem_singleton] at hj2
          subst hj2
          exact hdual.j0_tight hj0
      have he : st.u (p (st.way j)) + d + (st.v j - d) = st.u (p (st.way j)) + st.v j := by
        abel
      rw [he]
      exact hold
    -- the newly reached column closes a tight tree edge
    have hnew_tight :
        (updatePots size p (Function.update st.used st.j0 true) d
          ⟨st.u, st.v, s.minv⟩).u (p (s.way s.j1)) +
        (updatePots size p (Function.update st.used st.j0 true) d
          ⟨st.u, st.v, s.minv⟩).v s.j1 =
        cellCost cost size (p (s.way s.j1)) s.j1 := by
      obtain ⟨hwmem, hdval⟩ := hj1wayT
      rw [hu_mem (s.way s.j1) hwmem, hv_unused s.j1 hj1notmem]
      rw [redCost_cell] at hdval
      rw [hdval]
      abel
    -- the tracker keeps bounding the tree edges after the shift
    have hminv_lb1 : ∀ j, 1 ≤ j → j ≤ size → j ∉ L ++ [st.j0] → j ≠ s.j1 →
        ∀ jt ∈ L ++ [st.j0],
          fLt (some (redCost cost size (p jt)
              (updatePots size p (Function.update st.used st.j0 true) d
                ⟨st.u, st.v, s.minv⟩).u
              (updatePots size p (Function.update st.used st.j0 true) d
                ⟨st.u, st.v, s.minv⟩).v j))
            ((updatePots size p (Function.update st.used st.j0 true) d
              ⟨st.u, st.v, s.minv⟩).minv j) = false := by
      intro j hja hjb hjL hjne jt hjt
      have hju : Function.update st.used st.j0 true j = false := by
        cases h : Function.update st.used st.j0 true j
        · rfl
        · exact absurd ((hused1_iff j).mp h) hjL
      rw [updatePots_minv, if_pos ⟨hjb, hju⟩]
      have hred : redCost cost size (p jt)
          (updatePots size p (Function.update st.used st.j0 true) d
            ⟨st.u, st.v, s.minv⟩).u
          (updatePots size p (Function.update st.used st.j0 true) d
            ⟨st.u, st.v, s.minv⟩).v j =
          redCost cost size (p jt) st.u st.v j - d := by
        rw [redCost_cell, redCost_cell, hu_mem jt hjt, hv_unused j hjL]
        abel
      rw [hred]
      have hfs := fLt_fSub_of_false d (hsmin_lb j hja hjb hjL jt hjt)
      rw [fSub_some] at hfs
      exact hfs
    -- the tracker still stores the reduced cost through its predecessor
    have hminv_eq1 : ∀ j, 1 ≤ j → j ≤ size → j ∉ L ++ [st.j0] → j ≠ s.j1 →
        (updatePots size p (Function.update st.used st.j0 true) d
          ⟨st.u, st.v, s.minv⟩).minv j ≠ none →
        (updatePots size p (Function.update st.used st.j0 true) d
          ⟨st.u, st.v, s.minv⟩).minv j =
        some (redCost cost size (p (s.way j))
          (updatePots size p (Function.update st.used st.j0 true) d
            ⟨st.u, st.v, s.minv⟩).u
          (updatePots size p (Function.update st.used st.j0 true) d
            ⟨st.u, st.v, s.minv⟩).v j) := by
      intro j hja hjb hjL hjne hnn
      have hju : Function.update st.used st.j0 true j = false := by
        cases h : Function.update st.used st.j0 true j
        · rfl
        · exact absurd ((hused1_iff j).mp h) hjL
      rw [updatePots_minv, if_pos ⟨hjb, hju⟩] at hnn ⊢
      dsimp only at hnn ⊢
      cases hsmv : s.minv j with
      | none =>
        exfalso
        rw [hsmv] at hnn
        exact hnn rfl
      | some x =>
        rw [fSub_some]
        have hjr : j ∈ List.range' 1 size :=
          List.mem_range'.mpr ⟨j - 1, by omega, by omega⟩
        have hchar : if fLt (some (redCost cost size (p st.j0) st.u st.v j))
              (st.minv j) = true
            then s.minv j = some (redCost cost size (p st.j0) st.u st.v j) ∧
              s.way j = st.j0
            else s.minv j = st.minv j ∧ s.way j = st.way j := hout.char j hjr hju
        have hjnotL : j ∉ L := fun h => hjL (List.mem_append_left _ h)
        have hjnej0 : j ≠ st.j0 := by
          intro h
          rw [h] at hjL
          exact hjL (List.mem_append_right _ (List.mem_singleton_self st.j0))
        have hwmem : s.way j ∈ L ++ [st.j0] := hway_mem j hjL (by
          rw [hsmv]
          exact Option.some_ne_none x)
        have hxval : x = redCost cost size (p (s.way j)) st.u st.v j := by
          by_cases hc : fLt (some (redCost cost size (p st.j0) st.u st.v j))
              (st.minv j) = true
          · rw [if_pos hc] at hchar
            rw [hchar.2]
            have h2 := hchar.1
            rw [hsmv] at h2
            exact Option.some.inj h2
          · rw [if_neg hc] at hchar
            have hmne : st.minv j ≠ none := by
              rw [← hchar.1, hsmv]
              exact Option.some_ne_none x
            have hmeq := hdual.minv_eq j hja hjb hjnotL hjnej0 hmne
            rw [hchar.2]
            have h2 := hchar.1
            rw [hsmv, hmeq] at h2
            exact Option.some.inj h2
        have hredshift : redCost cost size (p (s.way j))
            (updatePots size p (Function.update st.used st.j0 true) d
              ⟨st.u, st.v, s.minv⟩).u
            (updatePots size p (Function.update st.used st.j0 true) d
              ⟨st.u, st.v, s.minv⟩).v j =
            redCost cost size (p (s.way j)) st.u st.v j - d := by
          rw [redCost_cell, redCost_cell, hu_mem (s.way j) hwmem, hv_unused j hjL]
          abel
        rw [hredshift, hxval]
    simp only [augment]
    rw [hscan]
    dsimp only
    rw [hd]
    dsimp only
    by_cases hterm : p s.j1 = 0
    · rw [if_pos hterm]
      refine ⟨_, L ++ [st.j0], rfl, ?_, ?_⟩
      · refine ⟨hnodup2, hmem2_le, hfirst2, hmatched2, hway_dec2, hj1a, hj1b, hterm,
          hj1notmem, ?_, ?_⟩
        · exact hway_mem s.j1 hj1notmem (by
            rw [hminv_j1]
            exact Option.some_ne_none d)
        · have hlen2 : (L ++ [st.j0]).toFinset.card = (L ++ [st.j0]).length :=
            List.toFinset_card_of_nodup hnodup2
          have hsub2 : (L ++ [st.j0]).toFinset ⊆ insert 0 (Mset p size) := by
            intro x hx
            rw [List.mem_toFinset] at hx
            rcases hLsubM x hx with h0 | hM
            · rw [h0]
              exact Finset.mem_insert_self _ _
            · exact Finset.mem_insert_of_mem hM
          have hc1 := Finset.card_le_card hsub2
          have hc2 := Finset.card_insert_le (0 : ℕ) (Mset p size)
          omega
      · refine ⟨hfeasK1, hfeasCur1, htight1, ?_⟩
        intro j hjm hj0
        rcases hjm with hjm | hjm
        · exact hway_tight1 j hjm hj0
        · have hjs : j = s.j1 := hjm
          subst hjs
          exact hnew_tight
    · rw [if_neg hterm]
      refine ih _ (L ++ [st.j0]) ?_ ?_ ?_
      · refine ⟨hnodup2, hmem2_le, hfirst2, ?_, hused1_iff, hmatched2, hj1b,
          hj1notmem, hterm, ?_, hway_dec2, ?_⟩
        · intro h
          exact absurd h (by simp)
        · intro _
          show (updatePots size p (Function.update st.used st.j0 true) d
            ⟨st.u, st.v, s.minv⟩).minv s.j1 ≠ none
          rw [updatePots_minv, if_pos ⟨hj1b, hj1unused⟩]
          dsimp only
          rw [hminv_j1, fSub_some]
          exact Option.some_ne_none _
        · intro j hjL hjm
          show s.way j ∈ L ++ [st.j0]
          have hjm2 : (updatePots size p (Function.update st.used st.j0 true) d
              ⟨st.u, st.v, s.minv⟩).minv j ≠ none := hjm
          rw [updatePots_minv] at hjm2
          dsimp only at hjm2
          by_cases hcnd : j ≤ size ∧ Function.update st.used st.j0 true j = false
          · rw [if_pos hcnd] at hjm2
            refine hway_mem j hjL ?_
            intro h
            rw [h, fSub_none] at hjm2
            exact hjm2 rfl
          · rw [if_neg hcnd] at hjm2
            exact hway_mem j hjL hjm2
      · exact ⟨hfeasK1, fun _ => hfeasCur1, htight1, hway_tight1, fun _ => hnew_tight,
          hminv_lb1, hminv_eq1⟩
      · show (Mset p size \ insert s.j1 (L ++ [st.j0]).toFinset).card < fuel
        have hj1M : s.j1 ∈ Mset p size :=
          Finset.mem_filter.mpr ⟨Finset.mem_Icc.mpr ⟨hj1a, hj1b⟩, hterm⟩
        have hj1old : s.j1 ∈ Mset p size \ insert st.j0 L.toFinset := by
          rw [Finset.mem_sdiff, Finset.mem_insert]
          refine ⟨hj1M, ?_⟩
          rintro (h | h)
          · refine hj1notmem ?_
            rw [h]
            exact List.mem_append_right _ (List.mem_singleton_self _)
          · exact hj1notmem (List.mem_append_left _ (List.mem_toFinset.mp h))
        have hsub : Mset p size \ insert s.j1 (L ++ [st.j0]).toFinset ⊆
            (Mset p size \ insert st.j0 L.toFinset).erase s.j1 := by
          intro x hx
          rw [Finset.mem_sdiff, Finset.mem_insert] at hx
          rw [Finset.mem_erase, Finset.mem_sdiff, Finset.mem_insert]
          have hx1 : x ∈ Mset p size := hx.1
          have hx2 : ¬(x = s.j1 ∨ x ∈ (L ++ [st.j0]).toFinset) := hx.2
          refine ⟨fun h => hx2 (Or.inl h), hx1, ?_⟩
          rintro (h | h)
          · refine hx2 (Or.inr ?_)
            rw [List.mem_toFinset, h]
            exact List.mem_append_right _ (List.mem_singleton_self _)
          · refine hx2 (Or.inr ?_)
            rw [List.mem_toFinset]
            exact List.mem_append_left _ (List.mem_toFinset.mp h)
        have hc1 := Finset.card_le_card hsub
        have hc2 := Finset.card_erase_of_mem hj1old
        have hc3 : 0 < (Mset p size \ insert st.j0 L.toFinset).card :=
          Finset.card_pos.mpr ⟨s.j1, hj1old⟩
        omega

/-! ### The path-reconstruction loop -/

theorem image_swap_simple (S : Finset ℕ) (jcur tgt : ℕ) (hjcur : jcur ∈ S) :
    Finset.image (fun y => if y = jcur then tgt else y) S = insert tgt (S.erase jcur) := by
  ext x
  simp only [Finset.mem_image, Finset.mem_insert, Finset.mem_erase]
  constructor
  · rintro ⟨y, hy, rfl⟩
    by_cases hyj : y = jcur
    · rw [if_pos hyj]
      exact Or.inl rfl
    · rw [if_neg hyj]
      exact Or.inr ⟨hyj, hy⟩
  · rintro (rfl | ⟨hx1, hx2⟩)
    · exact ⟨jcur, hjcur, if_pos rfl⟩
    · exact ⟨x, hx2, if_neg hx1⟩

theorem injOn_swap_not_mem (T : Finset ℕ) (jcur tgt : ℕ) (htgt : tgt ∉ T) :
    Set.InjOn (fun y => if y = jcur then tgt else y) ↑T := by
  intro a ha b hb hab
  rw [Finset.mem_coe] at ha hb
  dsimp only at hab
  by_cases haj : a = jcur
  · by_cases hbj : b = jcur
    · rw [haj, hbj]
    · rw [if_pos haj, if_neg hbj] at hab
      exact absurd (hab ▸ hb) htgt
  · by_cases hbj : b = jcur
    · rw [if_neg haj, if_pos hbj] at hab
      exact absurd (hab ▸ ha) htgt
    · rw [if_neg haj, if_neg hbj] at hab
      exact hab

theorem swap_chain_insert (R : Finset ℕ) (jcur j1 : ℕ) (hj1R : j1 ∈ R)
    (hjc0 : jcur ≠ 0) (hne : jcur ≠ j1) :
    insert j1 ((insert 0 (R.erase j1)).erase jcur) = insert 0 (R.erase jcur) := by
  ext x
  simp only [Finset.mem_insert, Finset.mem_erase]
  constructor
  · rintro (rfl | ⟨hx1, rfl | ⟨hx2, hx3⟩⟩)
    · exact Or.inr ⟨fun h => hne h.symm, hj1R⟩
    · exact Or.inl rfl
    · exact Or.inr ⟨hx1, hx3⟩
  · rintro (rfl | ⟨hx1, hx2⟩)
    · exact Or.inr ⟨fun h => hjc0 h.symm, Or.inl rfl⟩
    · by_cases hxj : x = j1
      · exact Or.inl hxj
      · exact Or.inr ⟨hx1, Or.inr ⟨hxj, hx2⟩⟩

theorem mem_take_of_le {γ : Type} {l : List γ} {a : γ} {k n : ℕ} (hkn : k ≤ n)
    (h : a ∈ l.take k) : a ∈ l.take n := by
  obtain ⟨idx, hlt, heq⟩ := List.mem_iff_getElem.mp h
  have hb : idx < k ∧ idx < l.length := by
    have := hlt
    simp only [List.length_take] at this
    omega
  rw [List.getElem_take] at heq
  have hlen : idx < (l.take n).length := by
    simp only [List.length_take]
    omega
  refine List.mem_iff_getElem.mpr ⟨idx, hlen, ?_⟩
  rw [List.getElem_take]
  exact heq

theorem reconstruct_spec (size : ℕ) (way : ℕ → ℕ) (L : List ℕ)
    (hnodup : L.Nodup)
    (hfirst : ∀ hk : 0 < L.length, L[0] = 0)
    (hway_dec : ∀ k, (hk : k < L.length) → 0 < k → way L[k] ∈ L.take k)
    (hmemle : ∀ x ∈ L, x ≤ size) :
    ∀ n : ℕ, ∀ (jcur : ℕ) (q : ℕ → ℕ) (fuel : ℕ), n < fuel →
      way jcur ∈ L.take n → jcur ∉ L.take n → jcur ≠ 0 → 1 ≤ jcur → jcur ≤ size →
      ∃ (q2 : ℕ → ℕ) (τ : ℕ → ℕ),
        reconstruct way fuel jcur q = some q2 ∧
        (∀ x, q2 x = q (τ x)) ∧
        Set.InjOn τ ↑(Finset.Icc 1 size) ∧
        Finset.image τ (Finset.Icc 1 size) =
          insert 0 ((Finset.Icc 1 size).erase jcur) ∧
        (∀ x, τ x = x ∨ (τ x = way x ∧ x ≠ 0 ∧ (x = jcur ∨ x ∈ L.take n))) := by
  intro n
  induction n using Nat.strong_induction_on with
  | _ n ih =>
    intro jcur q fuel hfuel hway hcurnot hj0 hjge hjle
    cases fuel with
    | zero => omega
    | succ f =>
      have hjcurR : jcur ∈ Finset.Icc 1 size := Finset.mem_Icc.mpr ⟨hjge, hjle⟩
      simp only [reconstruct]
      by_cases hz : way jcur = 0
      · rw [if_pos hz]
        refine ⟨_, fun y => if y = jcur then 0 else y, rfl, ?_, ?_, ?_, ?_⟩
        · intro x
          dsimp only
          by_cases hx : x = jcur
          · subst hx
            rw [Function.update_same, if_pos rfl, hz]
          · rw [Function.update_noteq hx, if_neg hx]
        · exact injOn_swap_not_mem _ jcur 0 (by simp)
        · exact image_swap_simple _ jcur 0 hjcurR
        · intro x
          dsimp only
          by_cases hx : x = jcur
          · subst hx
            exact Or.inr ⟨by rw [if_pos rfl, hz], hj0, Or.inl rfl⟩
          · rw [if_neg hx]
            exact Or.inl rfl
      · rw [if_neg hz]
        -- way jcur is some L[k] with k < n
        obtain ⟨k, hkt, hkeq⟩ := List.mem_iff_getElem.mp hway
        have hklen : k < L.length := by
          have := hkt
          simp only [List.length_take] at this
          omega
        have hkn : k < n := by
          have := hkt
          simp only [List.length_take] at this
          omega
        rw [List.getElem_take] at hkeq
        have hk0 : 0 < k := by
          rcases Nat.eq_zero_or_pos k with h0 | h0
          · exfalso
            subst h0
            rw [hfirst (by omega)] at hkeq
            exact hz hkeq.symm
          · exact h0
        have hj1L : way jcur ∈ L := by
          rw [← hkeq]
          exact List.getElem_mem hklen
        have hj1le : way jcur ≤ size := hmemle _ hj1L
        have hj1ge : 1 ≤ way jcur := by
          rcases Nat.eq_zero_or_pos (way jcur) with h0 | h0
          · exact absurd h0 hz
          · exact h0
        have hwd := hway_dec k hklen hk0
        rw [hkeq] at hwd
        have hj1not : way jcur ∉ L.take k := by
          intro hmem
          obtain ⟨k2, hk2t, hk2eq⟩ := List.mem_iff_getElem.mp hmem
          have hk2len : k2 < L.length := by
            have := hk2t
            simp only [List.length_take] at this
            omega
          have hk2k : k2 < k := by
            have := hk2t
            simp only [List.length_take] at this
            omega
          rw [List.getElem_take] at hk2eq
          rw [← hkeq] at hk2eq
          have := (List.Nodup.getElem_inj_iff hnodup).mp hk2eq
          omega
        have hnecur : jcur ≠ way jcur := by
          intro h
          rw [← h] at hway
          exact hcurnot hway
        obtain ⟨q2, τ2, hrec, he1, he2, he3, he4⟩ := ih k hkn (way jcur)
          (Function.update q jcur (q (way jcur))) f (by omega) hwd hj1not hz hj1ge hj1le
        refine ⟨q2, fun x => if τ2 x = jcur then way jcur else τ2 x, hrec, ?_, ?_, ?_, ?_⟩
        · intro x
          rw [he1 x]
          dsimp only
          by_cases hx : τ2 x = jcur
          · rw [if_pos hx, hx, Function.update_same]
          · rw [if_neg hx, Function.update_noteq hx]
        · have hmaps : Set.MapsTo τ2 ↑(Finset.Icc 1 size)
              ↑(insert 0 ((Finset.Icc 1 size).erase (way jcur))) := by
            intro x hx
            rw [Finset.mem_coe] at hx ⊢
            rw [← he3]
            exact Finset.mem_image_of_mem τ2 hx
          have hj1notT : way jcur ∉ insert 0 ((Finset.Icc 1 size).erase (way jcur)) := by
            simp only [Finset.mem_insert, Finset.mem_erase]
            rintro (h | ⟨h1, h2⟩)
            · exact hz h
            · exact h1 rfl
          exact Set.InjOn.comp (injOn_swap_not_mem _ jcur (way jcur) hj1notT) he2 hmaps
        · have himgeq : Finset.image (fun x => if τ2 x = jcur then way jcur else τ2 x)
              (Finset.Icc 1 size) =
              Finset.image (fun y => if y = jcur then way jcur else y)
                (Finset.image τ2 (Finset.Icc 1 size)) := by
            rw [Finset.image_image]
            rfl
          rw [himgeq, he3]
          have hjcurT : jcur ∈ insert 0 ((Finset.Icc 1 size).erase (way jcur)) := by
            simp only [Finset.mem_insert, Finset.mem_erase]
            exact Or.inr ⟨hnecur, hjcurR⟩
          rw [image_swap_simple _ jcur (way jcur) hjcurT]
          exact swap_chain_insert (Finset.Icc 1 size) jcur (way jcur)
            (Finset.mem_Icc.mpr ⟨hj1ge, hj1le⟩) hj0 hnecur
        · intro x
          dsimp only
          rcases he4 x with hid | ⟨hw, hx0, hmem⟩
          · by_cases hx : τ2 x = jcur
            · have hxj : x = jcur := by rw [← hid, hx]
              subst hxj
              exact Or.inr ⟨by rw [if_pos hx], hj0, Or.inl rfl⟩
            · rw [if_neg hx, hid]
              exact Or.inl rfl
          · by_cases hx : τ2 x = jcur
            · exfalso
              have hwxj : way x = jcur := by rw [← hw, hx]
              rcases hmem with hxw | hxtk
              · rw [hxw] at hwxj
                have hmemk : jcur ∈ L.take k := by
                  rw [← hwxj]
                  exact hwd
                exact hcurnot (mem_take_of_le (by omega) hmemk)
              · obtain ⟨idx, hidxlt, hidxeq⟩ := List.mem_iff_getElem.mp hxtk
                have hb : idx < k ∧ idx < L.length := by
                  have := hidxlt
                  simp only [List.length_take] at this
                  omega
                rw [List.getElem_take] at hidxeq
                have hidx0 : 0 < idx := by
                  rcases Nat.eq_zero_or_pos idx with h0 | h0
                  · exfalso
                    subst h0
                    rw [hfirst (by omega)] at hidxeq
                    exact hx0 hidxeq.symm
                  · exact h0
                have hwdx := hway_dec idx hb.2 hidx0
                rw [hidxeq, hwxj] at hwdx
                exact hcurnot (mem_take_of_le (by omega) hwdx)
            · rw [if_neg hx, hw]
              refine Or.inr ⟨rfl, hx0, Or.inr ?_⟩
              rcases hmem with hxw | hxtk
              · rw [hxw]
                exact hway
              · exact mem_take_of_le (by omega) hxtk

/-! ### One outer iteration -/

theorem insert_Icc_succ (k : ℕ) : insert (k + 1) (Finset.Icc 1 k) = Finset.Icc 1 (k + 1) := by
  ext x
  simp only [Finset.mem_insert, Finset.mem_Icc]
  omega

theorem solveRow_spec (cost : List α) (size : ℕ) (hlen : cost.length = size * size)
    (st : SolverSt α) (k : ℕ) (hinv : OuterInv size k st.p)
    (hdual : DualOuter cost size k st.u st.v st.p) (hk : k + 1 ≤ size) :
    ∃ st2 : SolverSt α, solveRow cost size st (k + 1) = some st2 ∧
      OuterInv size (k + 1) st2.p ∧
      DualOuter cost size (k + 1) st2.u st2.v st2.p := by
  set p0 := Function.update st.p 0 (k + 1) with hp0
  have hp0le : ∀ j, p0 j ≤ size := by
    intro j
    by_cases hj : j = 0
    · rw [hp0, hj, Function.update_same]
      exact hk
    · rw [hp0, Function.update_noteq hj]
      exact hinv.ple j
  have hp0eq : ∀ j, j ≠ 0 → p0 j = st.p j := by
    intro j hj
    rw [hp0, Function.update_noteq hj]
  have hMeq : Mset p0 size = Mset st.p size := by
    unfold Mset
    refine Finset.filter_congr ?_
    intro j hj
    rw [Finset.mem_Icc] at hj
    rw [hp0eq j (by omega)]
  have hvals : ∀ j ∈ Mset st.p size, p0 j = st.p j := by
    intro j hj
    unfold Mset at hj
    rw [Finset.mem_filter, Finset.mem_Icc] at hj
    exact hp0eq j (by omega)
  have hp0inj : Set.InjOn p0 ↑(Mset p0 size) := by
    rw [hMeq]
    intro a ha b hb hab
    rw [Finset.mem_coe] at ha hb
    rw [hvals a ha, hvals b hb] at hab
    exact hinv.inj ha hb hab
  have hp0img : Finset.image p0 (Mset p0 size) = Finset.Icc 1 k := by
    rw [hMeq, Finset.image_congr ?_, hinv.img]
    intro j hj
    rw [Finset.mem_coe] at hj
    exact hvals j hj
  have hp0zero : p0 0 = k + 1 := by
    rw [hp0, Function.update_same]
  have hcardM : (Mset p0 size).card = k := by
    have h1 := Finset.card_image_of_injOn hp0inj
    rw [hp0img, Nat.card_Icc] at h1
    omega
  have hcard : (Mset p0 size).card < size := by omega
  -- run the augmenting-path search
  obtain ⟨st2a, L2, haug, hpe, hde⟩ := augment_spec cost size p0 hlen hp0le hcard k
    hp0inj hp0img hp0zero (size + 1)
    ⟨st.u, st.v, st.way, fun _ => none, fun _ => false, 0⟩ []
    (by
      refine ⟨List.nodup_nil, ?_, ?_, ?_, ?_, ?_, ?_, ?_, ?_, ?_, ?_, ?_⟩
      · intro x hx
        exact absurd hx (List.not_mem_nil x)
      · intro hk2
        simp at hk2
      · intro _
        rfl
      · intro j
        constructor
        · intro h
          cases h
        · intro h
          exact absurd h (List.not_mem_nil j)
      · intro x hx
        exact absurd hx (List.not_mem_nil x)
      · exact Nat.zero_le size
      · exact List.not_mem_nil 0
      · rw [hp0zero]
        omega
      · intro h
        exact absurd rfl h
      · intro k2 hk2 h0
        simp at hk2
      · intro j _ hm
        exact absurd rfl hm)
    (by
      refine ⟨?_, ?_, ?_, ?_, ?_, ?_, ?_⟩
      · exact hdual.feas
      · intro h
        exact absurd rfl h
      · intro j hj hpj
        have hj0 : j ≠ 0 := by
          have := Finset.mem_Icc.mp hj
          omega
        show st.u (p0 j) + st.v j = cellCost cost size (p0 j) j
        rw [hp0eq j hj0] at hpj ⊢
        exact hdual.tight j hj hpj
      · intro j hj
        exact absurd hj (List.not_mem_nil j)
      · intro h
        exact absurd rfl h
      · intro j _ _ _ _ jt hjt
        exact absurd hjt (List.not_mem_nil jt)
      · intro j _ _ _ _ hne
        exact absurd rfl hne)
    (by
      show (Mset p0 size \ insert 0 List.nil.toFinset).card < size + 1
      have h1 : Mset p0 size \ insert 0 List.nil.toFinset ⊆ Mset p0 size :=
        Finset.sdiff_subset
      have h2 := Finset.card_le_card h1
      omega)
  -- reconstruct the path
  obtain ⟨q2, τ, hrec, he1, he2, he3, he4⟩ := reconstruct_spec size st2a.way L2
    hpe.nodupL hpe.first_zero hpe.way_dec hpe.memL_le L2.length st2a.j0 p0 (size + 1)
    (by
      have := hpe.len_le
      omega)
    (by
      rw [List.take_length]
      exact hpe.way_jend)
    (by
      rw [List.take_length]
      exact hpe.jend_not_mem)
    (by
      have := hpe.jend_pos
      omega)
    hpe.jend_pos hpe.jend_le
  refine ⟨⟨st2a.u, st2a.v, q2, st2a.way⟩, ?_, ?_, ?_⟩
  · unfold solveRow
    rw [← hp0]
    dsimp only
    rw [haug]
    dsimp only
    rw [hrec]
  · -- the new invariant
    have hjendR : st2a.j0 ∈ Finset.Icc 1 size :=
      Finset.mem_Icc.mpr ⟨hpe.jend_pos, hpe.jend_le⟩
    have hjendM : st2a.j0 ∉ Mset p0 size := by
      unfold Mset
      rw [Finset.mem_filter]
      rintro ⟨_, hne⟩
      exact hne hpe.jend_unmatched
    have hMsub : Mset p0 size ⊆ Finset.Icc 1 size := Finset.filter_subset _ _
    -- image of τ over the new matched set
    have himgM : Finset.image τ (Mset q2 size) = insert 0 (Mset p0 size) := by
      unfold Mset
      have hstep1 : (Finset.Icc 1 size).filter (fun j => q2 j ≠ 0) =
          (Finset.Icc 1 size).filter (fun j => p0 (τ j) ≠ 0) := by
        refine Finset.filter_congr ?_
        intro j _
        rw [he1 j]
      have hfi : Finset.image τ ((Finset.Icc 1 size).filter (fun j => p0 (τ j) ≠ 0)) =
          ((Finset.Icc 1 size).image τ).filter (fun y => p0 y ≠ 0) :=
        Eq.symm Finset.filter_image
      rw [hstep1, hfi, he3, Finset.filter_insert,
        if_pos (by rw [hp0zero]; omega), Finset.filter_erase,
        Finset.erase_eq_of_not_mem ?_]
      · intro hmem
        rw [Finset.mem_filter] at hmem
        exact hmem.2 hpe.jend_unmatched
    have hmapsτ : Set.MapsTo τ ↑(Mset q2 size) ↑(insert 0 (Mset p0 size)) := by
      intro x hx
      rw [Finset.mem_coe] at hx ⊢
      rw [← himgM]
      exact Finset.mem_image_of_mem τ hx
    have hp0inj2 : Set.InjOn p0 ↑(insert 0 (Mset p0 size)) := by
      intro a ha b hb hab
      rw [Finset.mem_coe, Finset.mem_insert] at ha hb
      rcases ha with rfl | ha
      · rcases hb with rfl | hb
        · rfl
        · exfalso
          have hb2 : p0 b ∈ Finset.image p0 (Mset p0 size) := Finset.mem_image_of_mem p0 hb
          rw [hp0img, ← hab, hp0zero, Finset.mem_Icc] at hb2
          omega
      · rcases hb with rfl | hb
        · exfalso
          have ha2 : p0 a ∈ Finset.image p0 (Mset p0 size) := Finset.mem_image_of_mem p0 ha
          rw [hp0img, hab, hp0zero, Finset.mem_Icc] at ha2
          omega
        · exact hp0inj ha hb hab
    have hMq2sub : Mset q2 size ⊆ Finset.Icc 1 size := Finset.filter_subset _ _
    refine ⟨?_, ?_, ?_⟩
    · intro j
      show q2 j ≤ size
      rw [he1 j]
      exact hp0le (τ j)
    · intro a ha b hb hab
      rw [Finset.mem_coe] at ha hb
      show a = b
      have hab2 : p0 (τ a) = p0 (τ b) := by
        rw [← he1 a, ← he1 b]
        exact hab
      have hτab : τ a = τ b := hp0inj2 (hmapsτ ha) (hmapsτ hb) hab2
      exact he2 (Finset.mem_coe.mpr (hMq2sub ha)) (Finset.mem_coe.mpr (hMq2sub hb)) hτab
    · show Finset.image q2 (Mset q2 size) = Finset.Icc 1 (k + 1)
      have hstep1 : Finset.image q2 (Mset q2 size) =
          Finset.image (p0 ∘ τ) (Mset q2 size) := by
        refine Finset.image_congr ?_
        intro j _
        exact he1 j
      rw [hstep1, ← Finset.image_image, himgM, Finset.image_insert, hp0zero, hp0img,
        insert_Icc_succ]
  · -- the dual invariant for the enlarged row set
    refine ⟨?_, ?_⟩
    · intro i hi j hj
      have hi2 := Finset.mem_Icc.mp hi
      show st2a.u i + st2a.v j ≤ cellCost cost size i j
      by_cases hik : i ≤ k
      · exact hde.feasK i (Finset.mem_Icc.mpr ⟨hi2.1, hik⟩) j hj
      · have hieq : i = k + 1 := by omega
        have hfc := hde.feasCur j hj
        rw [hp0zero] at hfc
        rw [hieq]
        exact hfc
    · intro j hj hq2
      show st2a.u (q2 j) + st2a.v j = cellCost cost size (q2 j) j
      have hq2b : q2 j ≠ 0 := hq2
      rcases he4 j with hid | ⟨hw, hj0ne, hmem⟩
      · rw [he1 j, hid] at hq2b
        rw [he1 j, hid]
        exact hde.tight j hj hq2b
      · rw [he1 j, hw]
        refine hde.way_tight j ?_ hj0ne
        rcases hmem with hmem | hmem
        · exact Or.inr hmem
        · rw [List.take_length] at hmem
          exact Or.inl hmem

/-! ### The outer loop and the final matching -/

theorem solveRows_fold_spec (cost : List α) (size : ℕ) (hlen : cost.length = size * size) :
    ∀ c : ℕ, ∀ a : ℕ, a + c ≤ size → ∀ st : SolverSt α, OuterInv size a st.p →
      DualOuter cost size a st.u st.v st.p →
      ∃ st2 : SolverSt α,
        (List.range' (a + 1) c).foldlM (solveRow cost size) st = some st2 ∧
        OuterInv size (a + c) st2.p ∧
        DualOuter cost size (a + c) st2.u st2.v st2.p := by
  intro c
  induction c with
  | zero =>
    intro a _ st hinv hdual
    exact ⟨st, rfl, by rw [Nat.add_zero]; exact hinv, by rw [Nat.add_zero]; exact hdual⟩
  | succ c ih =>
    intro a hac st hinv hdual
    obtain ⟨st1, hrow, hinv1, hdual1⟩ := solveRow_spec cost size hlen st a hinv hdual
      (by omega)
    rw [List.range'_succ, List.foldlM_cons, hrow, bind_some_eq]
    obtain ⟨st2, hfold, hinv2, hdual2⟩ := ih (a + 1) (by omega) st1 hinv1 hdual1
    have harith : a + 1 + c = a + (c + 1) := by omega
    rw [harith] at hinv2 hdual2
    exact ⟨st2, hfold, hinv2, hdual2⟩

theorem hungarian_core_matching (cost : List α) (size n m : ℕ)
    (hlen : cost.length = size * size) :
    ∃ (p : ℕ → ℕ) (u v : ℕ → α),
      hungarian_core cost size n m = some (buildAssignment p n m size) ∧
      Set.InjOn p ↑(Finset.Icc 1 size) ∧
      Finset.image p (Finset.Icc 1 size) = Finset.Icc 1 size ∧
      (∀ j, 1 ≤ j → j ≤ size → 1 ≤ p j ∧ p j ≤ size) ∧
      (∀ i ∈ Finset.Icc 1 size, ∀ j ∈ Finset.Icc 1 size,
        u i + v j ≤ cellCost cost size i j) ∧
      (∀ j ∈ Finset.Icc 1 size, u (p j) + v j = cellCost cost size (p j) j) := by
  have hinv0 : OuterInv size 0 (fun _ => (0 : ℕ)) := by
    refine ⟨fun j => Nat.zero_le size, ?_, ?_⟩
    · intro a ha b hb hab
      exfalso
      unfold Mset at ha
      rw [Finset.mem_coe, Finset.mem_filter] at ha
      exact ha.2 rfl
    · unfold Mset
      rw [Finset.filter_false_of_mem (fun x _ => by simp), Finset.image_empty,
        Finset.Icc_eq_empty (by omega)]
  have hdual0 : DualOuter cost size 0 (fun _ => (0 : α)) (fun _ => (0 : α))
      (fun _ => (0 : ℕ)) := by
    refine ⟨?_, ?_⟩
    · intro i hi
      rw [Finset.mem_Icc] at hi
      exact absurd hi (by omega)
    · intro j _ hne
      exact absurd rfl hne
  obtain ⟨st2, hfold, hinv, hdual⟩ := solveRows_fold_spec cost size hlen size 0 (by omega)
    ⟨fun _ => 0, fun _ => 0, fun _ => 0, fun _ => 0⟩ hinv0 hdual0
  have hinvs : OuterInv size size st2.p := by
    have h0 : 0 + size = size := by omega
    rw [h0] at hinv
    exact hinv
  have hduals : DualOuter cost size size st2.u st2.v st2.p := by
    have h0 : 0 + size = size := by omega
    rw [h0] at hdual
    exact hdual
  have hMeq : Mset st2.p size = Finset.Icc 1 size := by
    refine Finset.eq_of_subset_of_card_le (Finset.filter_subset _ _) ?_
    have h1 := Finset.card_image_of_injOn hinvs.inj
    rw [hinvs.img, Nat.card_Icc] at h1
    rw [Nat.card_Icc]
    omega
  have hfold2 : solveRows cost size ⟨fun _ => 0, fun _ => 0, fun _ => 0, fun _ => 0⟩
      (List.range' 1 size) = some st2 := hfold
  refine ⟨st2.p, st2.u, st2.v, ?_, ?_, ?_, ?_, ?_, ?_⟩
  · unfold hungarian_core
    rw [hfold2]
  · have h2 := hinvs.inj
    rw [hMeq] at h2
    exact h2
  · have h2 := hinvs.img
    rw [hMeq] at h2
    exact h2
  · intro j hj1 hj2
    have hjM : j ∈ Mset st2.p size := by
      rw [hMeq, Finset.mem_Icc]
      omega
    unfold Mset at hjM
    rw [Finset.mem_filter] at hjM
    refine ⟨by omega, hinvs.ple j⟩
  · exact hduals.feas
  · intro j hj
    refine hduals.tight j hj ?_
    have hjM : j ∈ Mset st2.p size := by
      rw [hMeq]
      exact hj
    unfold Mset at hjM
    rw [Finset.mem_filter] at hjM
    exact hjM.2

/-! ### The result projection -/

theorem assignStep_cond (p : ℕ → ℕ) (n m : ℕ) (acc : List ℤ) (j : ℕ)
    (h : 0 < p j ∧ p j ≤ n ∧ j ≤ m) :
    assignStep p n m acc j = acc.set (p j - 1) ((j : ℤ) - 1) := by
  unfold assignStep
  rw [if_pos h]

theorem assignStep_not_cond (p : ℕ → ℕ) (n m : ℕ) (acc : List ℤ) (j : ℕ)
    (h : ¬(0 < p j ∧ p j ≤ n ∧ j ≤ m)) :
    assignStep p n m acc j = acc := by
  unfold assignStep
  rw [if_neg h]

theorem assignFold_spec (p : ℕ → ℕ) (n m : ℕ) :
    ∀ js : List ℕ, js.Nodup → ∀ acc : List ℤ, acc.length = n →
      (js.foldl (assignStep p n m) acc).length = n ∧
      (∀ idx : ℕ, (∀ j ∈ js, ¬(0 < p j ∧ p j ≤ n ∧ j ≤ m ∧ p j = idx + 1)) →
        (js.foldl (assignStep p n m) acc)[idx]? = acc[idx]?) ∧
      (∀ j ∈ js, (0 < p j ∧ p j ≤ n ∧ j ≤ m) →
        (∀ j2 ∈ js, (0 < p j2 ∧ p j2 ≤ n ∧ j2 ≤ m) → p j2 = p j → j2 = j) →
        (js.foldl (assignStep p n m) acc)[p j - 1]? = some ((j : ℤ) - 1)) ∧
      (∀ idx : ℕ, ∀ v : ℤ, (js.foldl (assignStep p n m) acc)[idx]? = some v →
        acc[idx]? = some v ∨
          ∃ j ∈ js, (0 < p j ∧ p j ≤ n ∧ j ≤ m) ∧ p j = idx + 1 ∧ v = (j : ℤ) - 1) := by
  intro js
  induction js using List.reverseRecOn with
  | nil =>
    intro _ acc hacc
    refine ⟨hacc, fun idx _ => rfl, ?_, ?_⟩
    · intro j hj
      exact absurd hj (List.not_mem_nil j)
    · intro idx v hv
      exact Or.inl hv
  | append_singleton init a ih =>
    intro hnd acc hacc
    rw [List.nodup_append] at hnd
    have hai : a ∉ init := fun h => hnd.2.2 h (List.mem_singleton_self a)
    obtain ⟨ihlen, ihunt, ihsur, ihorg⟩ := ih hnd.1 acc hacc
    rw [List.foldl_append, List.foldl_cons, List.foldl_nil]
    by_cases hcond : 0 < p a ∧ p a ≤ n ∧ a ≤ m
    · rw [assignStep_cond p n m _ a hcond]
      have hplt : p a - 1 < (init.foldl (assignStep p n m) acc).length := by
        rw [ihlen]
        omega
      refine ⟨by rw [List.length_set, ihlen], ?_, ?_, ?_⟩
      · intro idx hidx
        have hno := hidx a (List.mem_append_right _ (List.mem_singleton_self a))
        have hne : p a ≠ idx + 1 := by
          intro h
          exact hno ⟨hcond.1, hcond.2.1, hcond.2.2, h⟩
        rw [List.getElem?_set, if_neg (by omega)]
        exact ihunt idx (fun j hj => hidx j (List.mem_append_left _ hj))
      · intro j hj hcj huniq
        rcases List.mem_append.mp hj with hj2 | hj2
        · have hja : j ≠ a := fun h => hai (h ▸ hj2)
          have hpja : p a ≠ p j := by
            intro h
            exact hja (huniq a (List.mem_append_right _ (List.mem_singleton_self a))
              hcond h).symm
          rw [List.getElem?_set, if_neg (by omega)]
          exact ihsur j hj2 hcj (fun j2 hj22 hc2 hp2 =>
            huniq j2 (List.mem_append_left _ hj22) hc2 hp2)
        · rw [List.mem_singleton] at hj2
          subst hj2
          rw [List.getElem?_set, if_pos rfl, if_pos hplt]
      · intro idx v hv
        rw [List.getElem?_set] at hv
        by_cases hidx : p a - 1 = idx
        · rw [if_pos hidx, if_pos hplt] at hv
          refine Or.inr ⟨a, List.mem_append_right _ (List.mem_singleton_self a),
            hcond, by omega, ?_⟩
          injection hv with hv2
          exact hv2.symm
        · rw [if_neg hidx] at hv
          rcases ihorg idx v hv with h2 | ⟨j, hj, hcj, hpj, hvj⟩
          · exact Or.inl h2
          · exact Or.inr ⟨j, List.mem_append_left _ hj, hcj, hpj, hvj⟩
    · rw [assignStep_not_cond p n m _ a hcond]
      refine ⟨ihlen, ?_, ?_, ?_⟩
      · intro idx hidx
        exact ihunt idx (fun j hj => hidx j (List.mem_append_left _ hj))
      · intro j hj hcj huniq
        rcases List.mem_append.mp hj with hj2 | hj2
        · exact ihsur j hj2 hcj (fun j2 hj22 hc2 hp2 =>
            huniq j2 (List.mem_append_left _ hj22) hc2 hp2)
        · rw [List.mem_singleton] at hj2
          subst hj2
          exact absurd hcj hcond
      · intro idx v hv
        rcases ihorg idx v hv with h2 | ⟨j, hj, hcj, hpj, hvj⟩
        · exact Or.inl h2
        · exact Or.inr ⟨j, List.mem_append_left _ hj, hcj, hpj, hvj⟩

theorem mem_range_one {size j : ℕ} : j ∈ List.range' 1 size ↔ 1 ≤ j ∧ j ≤ size := by
  rw [List.mem_range']
  constructor
  · rintro ⟨i, hi, rfl⟩
    omega
  · intro h
    exact ⟨j - 1, by omega, by omega⟩

theorem hungarian_algorithm_run (costM : List α) (n m : ℕ)
    (hlen : n * m ≤ costM.length) :
    ∃ (p : ℕ → ℕ) (u v : ℕ → α),
      hungarian_algorithm costM n m = some (buildAssignment p n m (max n m)) ∧
      Set.InjOn p ↑(Finset.Icc 1 (max n m)) ∧
      Finset.image p (Finset.Icc 1 (max n m)) = Finset.Icc 1 (max n m) ∧
      (∀ j, 1 ≤ j → j ≤ max n m → 1 ≤ p j ∧ p j ≤ max n m) ∧
      (∀ i ∈ Finset.Icc 1 (max n m), ∀ j ∈ Finset.Icc 1 (max n m),
        u i + v j ≤ cellCost (padFill costM n m (max n m)) (max n m) i j) ∧
      (∀ j ∈ Finset.Icc 1 (max n m),
        u (p j) + v j = cellCost (padFill costM n m (max n m)) (max n m) (p j) j) := by
  have hacc : ∀ i j, i < n → j < m → i * m + j < costM.length := fun i j hi hj =>
    cost_window_lt hlen hi hj
  obtain ⟨p, u, v, hcore, hinj, himg, hrange, hfeas, htight⟩ := hungarian_core_matching
    (padFill costM n m (max n m)) (max n m) n m (padFill_length costM n m (max n m))
  refine ⟨p, u, v, ?_, hinj, himg, hrange, hfeas, htight⟩
  unfold hungarian_algorithm
  by_cases h50 : 50 < max n m
  · rw [if_pos h50, padded_parallel_eq costM n m (max n m) hacc]
    dsimp only
    exact hcore
  · rw [if_neg h50, padded_sequential_eq costM n m (max n m) hacc]
    dsimp only
    exact hcore

/-- C10: for every input whose cost list covers `rows*cols` (all model
values finite by construction), `hungarian_algorithm` terminates and
every array access is in bounds: the model's reads are checked
(`none` = panic) and its loops carry fuel `size + 1` (`none` = loop
without progress), so producing `some` result shows the searches visit a
fresh column each iteration, the matched-row reads stay inside the cost
matrix, and reconstruction reaches the virtual column within the fuel. -/
theorem terminates_and_in_bounds (costM : List α) (n m : ℕ)
    (hlen : n * m ≤ costM.length) :
    ∃ r : List ℤ, hungarian_algorithm costM n m = some r := by
  obtain ⟨p, _, _, halg, _, _, _, _, _⟩ := hungarian_algorithm_run costM n m hlen
  exact ⟨_, halg⟩

theorem terminates_and_in_bounds_witness :
    1 * 2 ≤ ([1, 5, 2, 3, 1, 4] : List ℤ).length ∧
    ∃ r : List ℤ, hungarian_algorithm ([1, 5, 2, 3, 1, 4] : List ℤ) 1 2 = some r :=
  ⟨by decide, terminates_and_in_bounds [1, 5, 2, 3, 1, 4] 1 2 (by decide)⟩

/-- C3: for every valid input, the returned sequence has length `rows`,
every entry is `-1` or a value in `[0, cols-1]`, and the entries
different from `-1` are pairwise distinct. -/
theorem result_shape (costM : List α) (n m : ℕ) (hlen : costM.length = n * m) :
    ∃ r : List ℤ, hungarian_algorithm costM n m = some r ∧
      r.length = n ∧
      (∀ idx, idx < n → r.getD idx 0 = -1 ∨ (0 ≤ r.getD idx 0 ∧ r.getD idx 0 < (m : ℤ))) ∧
      (∀ i1 i2, i1 < n → i2 < n → i1 ≠ i2 → r.getD i1 0 ≠ -1 →
        r.getD i1 0 ≠ r.getD i2 0) := by
  obtain ⟨p, _, _, halg, hinj, himg, hrange, _, _⟩ :=
    hungarian_algorithm_run costM n m (le_of_eq hlen.symm)
  obtain ⟨hblen, hbunt, hbsur, hborg⟩ := assignFold_spec p n m
    (List.range' 1 (max n m)) (List.nodup_range' _ _) (List.replicate n (-1 : ℤ))
    (by simp)
  have hblen2 : (buildAssignment p n m (max n m)).length = n := hblen
  have hentry : ∀ idx, idx < n →
      (buildAssignment p n m (max n m))[idx]? =
        some ((buildAssignment p n m (max n m)).getD idx 0) := by
    intro idx hidx
    exact getElem?_eq_some_getD 0 (by rw [hblen2]; exact hidx)
  have horigin : ∀ idx, idx < n →
      (buildAssignment p n m (max n m)).getD idx 0 = -1 ∨
      ∃ j, 1 ≤ j ∧ j ≤ max n m ∧ (0 < p j ∧ p j ≤ n ∧ j ≤ m) ∧ p j = idx + 1 ∧
        (buildAssignment p n m (max n m)).getD idx 0 = (j : ℤ) - 1 := by
    intro idx hidx
    have h2 := hborg idx ((buildAssignment p n m (max n m)).getD idx 0) (hentry idx hidx)
    rcases h2 with h2 | ⟨j, hj, hcj, hpj, hvj⟩
    · left
      rw [List.getElem?_replicate, if_pos hidx] at h2
      injection h2 with h3
      exact h3.symm
    · right
      rw [mem_range_one] at hj
      exact ⟨j, hj.1, hj.2, hcj, hpj, hvj⟩
  refine ⟨buildAssignment p n m (max n m), halg, hblen2, ?_, ?_⟩
  · intro idx hidx
    rcases horigin idx hidx with h2 | ⟨j, hj1, hj2, hcj, hpj, hvj⟩
    · exact Or.inl h2
    · right
      rw [hvj]
      have : (1 : ℤ) ≤ (j : ℤ) := by exact_mod_cast hj1
      have : (j : ℤ) ≤ (m : ℤ) := by exact_mod_cast hcj.2.2
      omega
  · intro i1 i2 hi1 hi2 hne hv1
    rcases horigin i1 hi1 with h2 | ⟨j1, hj11, hj12, hcj1, hpj1, hvj1⟩
    · exact absurd h2 hv1
    · intro heq
      rcases horigin i2 hi2 with h3 | ⟨j2, hj21, hj22, hcj2, hpj2, hvj2⟩
      · rw [heq, h3] at hv1
        exact hv1 rfl
      · rw [hvj1, hvj2] at heq
        have hj12eq : j1 = j2 := by exact_mod_cast (by omega : (j1 : ℤ) = (j2 : ℤ))
        rw [hj12eq, hpj2] at hpj1
        omega

theorem result_shape_witness :
    ([1, 5, 2, 3, 1, 4] : List ℤ).length = 2 * 3 ∧
    ∃ r : List ℤ, hungarian_algorithm ([1, 5, 2, 3, 1, 4] : List ℤ) 2 3 = some r ∧
      r.length = 2 ∧
      (∀ idx, idx < 2 → r.getD idx 0 = -1 ∨ (0 ≤ r.getD idx 0 ∧ r.getD idx 0 < (3 : ℤ))) ∧
      (∀ i1 i2, i1 < 2 → i2 < 2 → i1 ≠ i2 → r.getD i1 0 ≠ -1 →
        r.getD i1 0 ≠ r.getD i2 0) :=
  ⟨by decide, result_shape [1, 5, 2, 3, 1, 4] 2 3 (by decide)⟩

/-- C5: on the degenerate inputs the algorithm returns the documented
values: zero rows give the empty sequence, zero columns give a sequence
of `rows` entries all equal to `-1`. -/
theorem degenerate_cases :
    (∀ m : ℕ, hungarian_algorithm ([] : List α) 0 m = some []) ∧
    (∀ k : ℕ, hungarian_algorithm ([] : List α) k 0 = some (List.replicate k (-1 : ℤ))) := by
  constructor
  · intro m
    obtain ⟨p, _, _, halg, _, _, _, _, _⟩ := hungarian_algorithm_run ([] : List α) 0 m (by simp)
    rw [halg]
    obtain ⟨hblen, _, _, _⟩ := assignFold_spec p 0 m
      (List.range' 1 (max 0 m)) (List.nodup_range' _ _) (List.replicate 0 (-1 : ℤ))
      (by simp)
    have hblen2 : (buildAssignment p 0 m (max 0 m)).length = 0 := hblen
    rw [List.eq_nil_of_length_eq_zero hblen2]
  · intro k
    obtain ⟨p, _, _, halg, _, _, _, _, _⟩ := hungarian_algorithm_run ([] : List α) k 0 (by simp)
    rw [halg]
    obtain ⟨hblen, hbunt, _, _⟩ := assignFold_spec p k 0
      (List.range' 1 (max k 0)) (List.nodup_range' _ _) (List.replicate k (-1 : ℤ))
      (by simp)
    have hblen2 : (buildAssignment p k 0 (max k 0)).length = k := hblen
    congr 1
    apply List.ext_getElem?
    intro idx
    have hunt : (buildAssignment p k 0 (max k 0))[idx]? =
        (List.replicate k (-1 : ℤ))[idx]? := by
      refine hbunt idx ?_
      intro j hj hcon
      rw [mem_range_one] at hj
      omega
    rw [hunt]

/-- C4: for every valid finite input: if `rows < cols` every entry of
the result differs from `-1`; if `rows > cols` exactly `cols` positions
hold a value different from `-1` and the rest hold `-1`; if
`rows = cols` every entry differs from `-1`. -/
theorem assignment_counts (costM : List α) (n m : ℕ) (hlen : costM.length = n * m) :
    ∃ r : List ℤ, hungarian_algorithm costM n m = some r ∧
      (n < m → ∀ idx, idx < n → r.getD idx 0 ≠ -1) ∧
      (m < n → ((Finset.range n).filter (fun idx => r.getD idx 0 ≠ -1)).card = m) ∧
      (n = m → ∀ idx, idx < n → r.getD idx 0 ≠ -1) := by
  obtain ⟨p, _, _, halg, hinj, himg, hrange, _, _⟩ :=
    hungarian_algorithm_run costM n m (le_of_eq hlen.symm)
  obtain ⟨hblen, hbunt, hbsur, hborg⟩ := assignFold_spec p n m
    (List.range' 1 (max n m)) (List.nodup_range' _ _) (List.replicate n (-1 : ℤ))
    (by simp)
  have hblen2 : (buildAssignment p n m (max n m)).length = n := hblen
  have hall : n ≤ m → ∀ idx, idx < n →
      (buildAssignment p n m (max n m)).getD idx 0 ≠ -1 := by
    intro hnm idx hidx
    have hmax : max n m = m := Nat.max_eq_right hnm
    have hmem : idx + 1 ∈ Finset.Icc 1 (max n m) := by
      rw [Finset.mem_Icc]
      omega
    rw [← himg] at hmem
    obtain ⟨j, hjI, hpj⟩ := Finset.mem_image.mp hmem
    rw [Finset.mem_Icc] at hjI
    have hcond : 0 < p j ∧ p j ≤ n ∧ j ≤ m := ⟨by omega, by omega, by omega⟩
    have huniq : ∀ j2 ∈ List.range' 1 (max n m), (0 < p j2 ∧ p j2 ≤ n ∧ j2 ≤ m) →
        p j2 = p j → j2 = j := by
      intro j2 hj2 hc2 hp2
      rw [mem_range_one] at hj2
      exact hinj (Finset.mem_coe.mpr (Finset.mem_Icc.mpr ⟨hj2.1, hj2.2⟩))
        (Finset.mem_coe.mpr (Finset.mem_Icc.mpr ⟨hjI.1, hjI.2⟩)) hp2
    have hsur := hbsur j (mem_range_one.mpr ⟨hjI.1, hjI.2⟩) hcond huniq
    have hidxeq : p j - 1 = idx := by omega
    rw [hidxeq] at hsur
    have hget := getElem?_eq_some_getD (0 : ℤ)
      (show idx < (buildAssignment p n m (max n m)).length by omega)
    have hget2 : ((List.range' 1 (max n m)).foldl (assignStep p n m)
        (List.replicate n (-1 : ℤ)))[idx]? =
        some ((buildAssignment p n m (max n m)).getD idx 0) := hget
    rw [hget2] at hsur
    injection hsur with h3
    rw [h3]
    have hc1 : (1 : ℤ) ≤ (j : ℤ) := by exact_mod_cast hjI.1
    omega
  refine ⟨buildAssignment p n m (max n m), halg, ?_, ?_, ?_⟩
  · intro h
    exact hall (by omega)
  · intro hmn
    have hmax : max n m = n := Nat.max_eq_left (by omega)
    have hseteq : (Finset.range n).filter (fun idx =>
        (buildAssignment p n m (max n m)).getD idx 0 ≠ -1) =
        (Finset.Icc 1 m).image (fun j => p j - 1) := by
      ext idx
      rw [Finset.mem_filter, Finset.mem_range, Finset.mem_image]
      constructor
      · rintro ⟨hidx, hne⟩
        have hget := getElem?_eq_some_getD (0 : ℤ)
          (show idx < (buildAssignment p n m (max n m)).length by omega)
        have hget2 : ((List.range' 1 (max n m)).foldl (assignStep p n m)
            (List.replicate n (-1 : ℤ)))[idx]? =
            some ((buildAssignment p n m (max n m)).getD idx 0) := hget
        rcases hborg idx _ hget2 with h2 | ⟨j, hj, hcj, hpj, hvj⟩
        · exfalso
          rw [List.getElem?_replicate, if_pos hidx] at h2
          injection h2 with h3
          exact hne h3.symm
        · rw [mem_range_one] at hj
          exact ⟨j, Finset.mem_Icc.mpr ⟨hj.1, hcj.2.2⟩, by omega⟩
      · rintro ⟨j, hjI, rfl⟩
        rw [Finset.mem_Icc] at hjI
        have hjsize : j ≤ max n m := by omega
        have hpr := hrange j hjI.1 hjsize
        have hcond : 0 < p j ∧ p j ≤ n ∧ j ≤ m := ⟨by omega, by omega, hjI.2⟩
        have huniq : ∀ j2 ∈ List.range' 1 (max n m), (0 < p j2 ∧ p j2 ≤ n ∧ j2 ≤ m) →
            p j2 = p j → j2 = j := by
          intro j2 hj2 hc2 hp2
          rw [mem_range_one] at hj2
          exact hinj (Finset.mem_coe.mpr (Finset.mem_Icc.mpr ⟨hj2.1, hj2.2⟩))
            (Finset.mem_coe.mpr (Finset.mem_Icc.mpr ⟨hjI.1, hjsize⟩)) hp2
        have hsur := hbsur j (mem_range_one.mpr ⟨hjI.1, hjsize⟩) hcond huniq
        have hplt : p j - 1 < n := by omega
        refine ⟨hplt, ?_⟩
        have hget := getElem?_eq_some_getD (0 : ℤ)
          (show p j - 1 < (buildAssignment p n m (max n m)).length by omega)
        have hget2 : ((List.range' 1 (max n m)).foldl (assignStep p n m)
            (List.replicate n (-1 : ℤ)))[p j - 1]? =
            some ((buildAssignment p n m (max n m)).getD (p j - 1) 0) := hget
        rw [hget2] at hsur
        injection hsur with h3
        rw [h3]
        have hc1 : (1 : ℤ) ≤ (j : ℤ) := by exact_mod_cast hjI.1
        omega
    rw [hseteq]
    have hinj2 : Set.InjOn (fun j => p j - 1) ↑(Finset.Icc 1 m) := by
      intro a ha b hb hab
      rw [Finset.mem_coe, Finset.mem_Icc] at ha hb
      have hpa := (hrange a ha.1 (by omega)).1
      have hpb := (hrange b hb.1 (by omega)).1
      dsimp only at hab
      have hpe : p a = p b := by omega
      exact hinj (Finset.mem_coe.mpr (Finset.mem_Icc.mpr ⟨ha.1, by omega⟩))
        (Finset.mem_coe.mpr (Finset.mem_Icc.mpr ⟨hb.1, by omega⟩)) hpe
    rw [Finset.card_image_of_injOn hinj2, Nat.card_Icc]
    omega
  · intro h
    exact hall (by omega)

theorem assignment_counts_witness :
    ([1, 5, 2, 3, 1, 4] : List ℤ).length = 2 * 3 ∧
    ∃ r : List ℤ, hungarian_algorithm ([1, 5, 2, 3, 1, 4] : List ℤ) 2 3 = some r ∧
      (2 < 3 → ∀ idx, idx < 2 → r.getD idx 0 ≠ -1) ∧
      (3 < 2 → ((Finset.range 2).filter (fun idx => r.getD idx 0 ≠ -1)).card = 3) ∧
      (2 = 3 → ∀ idx, idx < 2 → r.getD idx 0 ≠ -1) :=
  ⟨by decide, assignment_counts [1, 5, 2, 3, 1, 4] 2 3 (by decide)⟩

/-! ### Optimality: weak duality -/

theorem sum_reindex_bij (u : ℕ → α) (size : ℕ) (q : ℕ → ℕ)
    (hinj : Set.InjOn q ↑(Finset.Icc 1 size))
    (himg : Finset.image q (Finset.Icc 1 size) = Finset.Icc 1 size) :
    ∑ j ∈ Finset.Icc 1 size, u (q j) = ∑ i ∈ Finset.Icc 1 size, u i := by
  have h : ∀ x ∈ Finset.Icc 1 size, ∀ y ∈ Finset.Icc 1 size, q x = q y → x = y :=
    fun x hx y hy => hinj (Finset.mem_coe.mpr hx) (Finset.mem_coe.mpr hy)
  conv_rhs => rw [← himg]
  rw [Finset.sum_image h]

theorem dual_matching_value (cost : List α) (size : ℕ) (u v : ℕ → α) (p : ℕ → ℕ)
    (hinj : Set.InjOn p ↑(Finset.Icc 1 size))
    (himg : Finset.image p (Finset.Icc 1 size) = Finset.Icc 1 size)
    (htight : ∀ j ∈ Finset.Icc 1 size, u (p j) + v j = cellCost cost size (p j) j) :
    ∑ j ∈ Finset.Icc 1 size, cellCost cost size (p j) j =
      (∑ i ∈ Finset.Icc 1 size, u i) + ∑ j ∈ Finset.Icc 1 size, v j := by
  have h1 : ∑ j ∈ Finset.Icc 1 size, cellCost cost size (p j) j =
      ∑ j ∈ Finset.Icc 1 size, (u (p j) + v j) :=
    Finset.sum_congr rfl (fun j hj => (htight j hj).symm)
  rw [h1, Finset.sum_add_distrib, sum_reindex_bij u size p hinj himg]

theorem dual_lower_bound (cost : List α) (size : ℕ) (u v : ℕ → α) (q : ℕ → ℕ)
    (hfeas : ∀ i ∈ Finset.Icc 1 size, ∀ j ∈ Finset.Icc 1 size,
      u i + v j ≤ cellCost cost size i j)
    (hinj : Set.InjOn q ↑(Finset.Icc 1 size))
    (himg : Finset.image q (Finset.Icc 1 size) = Finset.Icc 1 size) :
    (∑ i ∈ Finset.Icc 1 size, u i) + ∑ j ∈ Finset.Icc 1 size, v j ≤
      ∑ j ∈ Finset.Icc 1 size, cellCost cost size (q j) j := by
  have hq : ∀ j ∈ Finset.Icc 1 size, q j ∈ Finset.Icc 1 size := by
    intro j hj
    rw [← himg]
    exact Finset.mem_image_of_mem q hj
  have h1 : ∑ j ∈ Finset.Icc 1 size, (u (q j) + v j) ≤
      ∑ j ∈ Finset.Icc 1 size, cellCost cost size (q j) j :=
    Finset.sum_le_sum (fun j hj => hfeas (q j) (hq j hj) j hj)
  rw [Finset.sum_add_distrib, sum_reindex_bij u size q hinj himg] at h1
  exact h1

theorem permRow_val {size : ℕ} (σ : Equiv.Perm (Fin size)) (j : ℕ)
    (h : 1 ≤ j ∧ j ≤ size) :
    permRow σ j = ((σ.symm ⟨j - 1, by omega⟩ : Fin size) : ℕ) + 1 := by
  unfold permRow
  rw [dif_pos h]

theorem permRow_mem {size : ℕ} (σ : Equiv.Perm (Fin size)) {j : ℕ}
    (hj : j ∈ Finset.Icc 1 size) : permRow σ j ∈ Finset.Icc 1 size := by
  rw [Finset.mem_Icc] at hj
  rw [permRow_val σ j hj, Finset.mem_Icc]
  refine ⟨by omega, ?_⟩
  exact (σ.symm (⟨j - 1, by omega⟩ : Fin size)).isLt

theorem permRow_inj {size : ℕ} (σ : Equiv.Perm (Fin size)) :
    Set.InjOn (permRow σ) ↑(Finset.Icc 1 size) := by
  intro a ha b hb hab
  rw [Finset.mem_coe, Finset.mem_Icc] at ha hb
  rw [permRow_val σ a ha, permRow_val σ b hb] at hab
  have h2 := Fin.val_injective (Nat.add_right_cancel hab)
  have h3 := σ.symm.injective h2
  have h4 : a - 1 = b - 1 := congrArg Fin.val h3
  omega

theorem permRow_img {size : ℕ} (σ : Equiv.Perm (Fin size)) :
    Finset.image (permRow σ) (Finset.Icc 1 size) = Finset.Icc 1 size := by
  refine Finset.Subset.antisymm ?_ ?_
  · intro x hx
    rw [Finset.mem_image] at hx
    obtain ⟨j, hj, rfl⟩ := hx
    exact permRow_mem σ hj
  · intro i hi
    rw [Finset.mem_Icc] at hi
    rw [Finset.mem_image]
    refine ⟨(σ (⟨i - 1, by omega⟩ : Fin size)).val + 1, ?_, ?_⟩
    · rw [Finset.mem_Icc]
      exact ⟨by omega, (σ (⟨i - 1, by omega⟩ : Fin size)).isLt⟩
    · have hcond : 1 ≤ (σ (⟨i - 1, by omega⟩ : Fin size)).val + 1 ∧
          (σ (⟨i - 1, by omega⟩ : Fin size)).val + 1 ≤ size :=
        ⟨by omega, (σ (⟨i - 1, by omega⟩ : Fin size)).isLt⟩
      rw [permRow_val σ _ hcond]
      have he : (⟨(σ (⟨i - 1, by omega⟩ : Fin size)).val + 1 - 1, by omega⟩ : Fin size) =
          σ (⟨i - 1, by omega⟩ : Fin size) := by
        apply Fin.ext
        show (σ (⟨i - 1, by omega⟩ : Fin size)).val + 1 - 1 =
          (σ (⟨i - 1, by omega⟩ : Fin size)).val
        omega
      rw [he, Equiv.symm_apply_apply]
      show i - 1 + 1 = i
      omega

theorem matchingCost_eq (cost : List α) (size : ℕ) (σ : Equiv.Perm (Fin size)) :
    matchingCost cost size σ =
      ∑ j ∈ Finset.Icc 1 size, cellCost cost size (permRow σ j) j := by
  unfold matchingCost
  refine Finset.sum_bij (fun (a : Fin size) _ => (σ a).val + 1) ?_ ?_ ?_ ?_
  · intro a _
    show (σ a).val + 1 ∈ Finset.Icc 1 size
    rw [Finset.mem_Icc]
    exact ⟨by omega, (σ a).isLt⟩
  · intro a1 ha1 a2 ha2 hab
    have hab2 : (σ a1).val + 1 = (σ a2).val + 1 := hab
    exact σ.injective (Fin.val_injective (Nat.add_right_cancel hab2))
  · intro b hb
    rw [Finset.mem_Icc] at hb
    refine ⟨σ.symm ⟨b - 1, by omega⟩, Finset.mem_univ _, ?_⟩
    show (σ (σ.symm (⟨b - 1, by omega⟩ : Fin size))).val + 1 = b
    rw [Equiv.apply_symm_apply]
    show b - 1 + 1 = b
    omega
  · intro a _
    show cost.getD (a.val * size + (σ a).val) 0 =
      cellCost cost size (permRow σ ((σ a).val + 1)) ((σ a).val + 1)
    have hcond : 1 ≤ (σ a).val + 1 ∧ (σ a).val + 1 ≤ size := ⟨by omega, (σ a).isLt⟩
    rw [permRow_val σ _ hcond]
    have he : (⟨(σ a).val + 1 - 1, by omega⟩ : Fin size) = σ a := by
      apply Fin.ext
      show (σ a).val + 1 - 1 = (σ a).val
      omega
    rw [he, Equiv.symm_apply_apply]
    unfold cellCost
    have h1 : (a.val + 1 - 1) * size = a.val * size := by
      rw [Nat.add_sub_cancel]
    have h2 : (σ a).val + 1 - 1 = (σ a).val := by
      rw [Nat.add_sub_cancel]
    rw [h1, h2]

/-! ### Optimality: the cost of the returned assignment -/

theorem foldl_addStep (costM : List α) (m : ℕ) (r : List ℤ) :
    ∀ (js : List ℕ) (acc : α),
      js.foldl (fun acc i =>
        match r[i]? with
        | some j => if 0 ≤ j then acc + costM.getD (i * m + j.toNat) 0 else acc
        | none => acc) acc =
      acc + (js.map (resultCellCost costM m r)).sum := by
  intro js
  induction js with
  | nil =>
    intro acc
    simp
  | cons a t ih =>
    intro acc
    rw [List.foldl_cons, List.map_cons, List.sum_cons, ih]
    cases hr : r[a]? with
    | none =>
      have hz : resultCellCost costM m r a = 0 := by
        unfold resultCellCost
        rw [hr]
      rw [hz, zero_add]
    | some jv =>
      have hrc : resultCellCost costM m r a =
          if 0 ≤ jv then costM.getD (a * m + jv.toNat) 0 else 0 := by
        unfold resultCellCost
        rw [hr]
      rw [hrc]
      show (if 0 ≤ jv then acc + costM.getD (a * m + jv.toNat) 0 else acc) +
          (List.map (resultCellCost costM m r) t).sum =
        acc + ((if 0 ≤ jv then costM.getD (a * m + jv.toNat) 0 else 0) +
          (List.map (resultCellCost costM m r) t).sum)
      by_cases hj : (0 : ℤ) ≤ jv
      · rw [if_pos hj, if_pos hj, add_assoc]
      · rw [if_neg hj, if_neg hj, zero_add]

theorem map_sum_range (g : ℕ → α) :
    ∀ nn : ℕ, ((List.range nn).map g).sum = ∑ i ∈ Finset.range nn, g i := by
  intro nn
  induction nn with
  | zero => simp
  | succ t ih =>
    rw [List.range_succ, List.map_append, List.sum_append, Finset.sum_range_succ, ih]
    simp

theorem totalCost_sum (costM : List α) (m : ℕ) (r : List ℤ) :
    totalCostOfResult costM m r =
      ∑ i ∈ Finset.range r.length, resultCellCost costM m r i := by
  unfold totalCostOfResult
  rw [foldl_addStep, map_sum_range, zero_add]

theorem cellCost_padFill (costM : List α) (n m size : ℕ) {i j : ℕ}
    (hi1 : 1 ≤ i) (hi2 : i ≤ size) (hj1 : 1 ≤ j) (hj2 : j ≤ size) :
    cellCost (padFill costM n m size) size i j = fillCell costM n m (i - 1) (j - 1) := by
  unfold cellCost
  rw [List.getD_eq_getElem?_getD,
    padFill_getElem costM n m size (show i - 1 < size by omega)
      (show j - 1 < size by omega)]
  rfl

theorem totalCost_eq_matching_sum (costM : List α) (n m : ℕ) (p : ℕ → ℕ)
    (hinj : Set.InjOn p ↑(Finset.Icc 1 (max n m)))
    (hrange : ∀ j, 1 ≤ j → j ≤ max n m → 1 ≤ p j ∧ p j ≤ max n m) :
    totalCostOfResult costM m (buildAssignment p n m (max n m)) =
      ∑ j ∈ Finset.Icc 1 (max n m),
        cellCost (padFill costM n m (max n m)) (max n m) (p j) j := by
  obtain ⟨hblen, hbunt, hbsur, hborg⟩ := assignFold_spec p n m
    (List.range' 1 (max n m)) (List.nodup_range' _ _) (List.replicate n (-1 : ℤ))
    (by simp)
  have hblen2 : (buildAssignment p n m (max n m)).length = n := hblen
  have hsur2 : ∀ j, 1 ≤ j → j ≤ max n m → (0 < p j ∧ p j ≤ n ∧ j ≤ m) →
      (buildAssignment p n m (max n m))[p j - 1]? = some ((j : ℤ) - 1) := by
    intro j hj1 hj2 hcond
    have huniq : ∀ j2 ∈ List.range' 1 (max n m), (0 < p j2 ∧ p j2 ≤ n ∧ j2 ≤ m) →
        p j2 = p j → j2 = j := by
      intro j2 hj2m hc2 hp2
      rw [mem_range_one] at hj2m
      exact hinj (Finset.mem_coe.mpr (Finset.mem_Icc.mpr hj2m))
        (Finset.mem_coe.mpr (Finset.mem_Icc.mpr ⟨hj1, hj2⟩)) hp2
    exact hbsur j (mem_range_one.mpr ⟨hj1, hj2⟩) hcond huniq
  have horg2 : ∀ idx v2, (buildAssignment p n m (max n m))[idx]? = some v2 → idx < n →
      v2 = -1 ∨ ∃ j, (1 ≤ j ∧ j ≤ max n m) ∧ (0 < p j ∧ p j ≤ n ∧ j ≤ m) ∧
        p j = idx + 1 ∧ v2 = (j : ℤ) - 1 := by
    intro idx v2 hv hidx
    have hv2 : ((List.range' 1 (max n m)).foldl (assignStep p n m)
        (List.replicate n (-1 : ℤ)))[idx]? = some v2 := hv
    rcases hborg idx v2 hv2 with h2 | ⟨j, hj, hcj, hpj, hvj⟩
    · left
      rw [List.getElem?_replicate, if_pos hidx] at h2
      exact (Option.some.inj h2).symm
    · right
      rw [mem_range_one] at hj
      exact ⟨j, hj, hcj, hpj, hvj⟩
  rw [totalCost_sum, hblen2]
  have hSsub : ((Finset.Icc 1 (max n m)).filter (fun j => p j ≤ n ∧ j ≤ m)).image
      (fun j => p j - 1) ⊆ Finset.range n := by
    intro x hx
    rw [Finset.mem_image] at hx
    obtain ⟨j, hj, rfl⟩ := hx
    rw [Finset.mem_filter, Finset.mem_Icc] at hj
    have hp1 := (hrange j hj.1.1 hj.1.2).1
    rw [Finset.mem_range]
    omega
  have hvanish : ∀ x ∈ Finset.range n,
      x ∉ ((Finset.Icc 1 (max n m)).filter (fun j => p j ≤ n ∧ j ≤ m)).image
        (fun j => p j - 1) →
      resultCellCost costM m (buildAssignment p n m (max n m)) x = 0 := by
    intro x hx hnx
    rw [Finset.mem_range] at hx
    have hge := getElem?_eq_some_getD (0 : ℤ)
      (show x < (buildAssignment p n m (max n m)).length by omega)
    rcases horg2 x _ hge hx with hneg | ⟨j, hjb, hcj, hpj, hvj⟩
    · unfold resultCellCost
      rw [hge, hneg]
      show (if (0 : ℤ) ≤ -1 then costM.getD (x * m + ((-1 : ℤ)).toNat) 0 else 0) = 0
      rw [if_neg (by decide)]
    · exfalso
      refine hnx (Finset.mem_image.mpr ⟨j, ?_, ?_⟩)
      · rw [Finset.mem_filter, Finset.mem_Icc]
        exact ⟨⟨hjb.1, hjb.2⟩, hcj.2.1, hcj.2.2⟩
      · omega
  rw [← Finset.sum_subset hSsub hvanish]
  have himginj2 : ∀ x ∈ (Finset.Icc 1 (max n m)).filter (fun j => p j ≤ n ∧ j ≤ m),
      ∀ y ∈ (Finset.Icc 1 (max n m)).filter (fun j => p j ≤ n ∧ j ≤ m),
      p x - 1 = p y - 1 → x = y := by
    intro x hx y hy hxy
    rw [Finset.mem_filter, Finset.mem_Icc] at hx hy
    have hx1 := (hrange x hx.1.1 hx.1.2).1
    have hy1 := (hrange y hy.1.1 hy.1.2).1
    have hpe : p x = p y := by omega
    exact hinj (Finset.mem_coe.mpr (Finset.mem_Icc.mpr hx.1))
      (Finset.mem_coe.mpr (Finset.mem_Icc.mpr hy.1)) hpe
  rw [Finset.sum_image himginj2]
  have hRHS : ∑ j ∈ Finset.Icc 1 (max n m),
      cellCost (padFill costM n m (max n m)) (max n m) (p j) j =
      ∑ j ∈ (Finset.Icc 1 (max n m)).filter (fun j => p j ≤ n ∧ j ≤ m),
        cellCost (padFill costM n m (max n m)) (max n m) (p j) j := by
    refine (Finset.sum_subset (Finset.filter_subset _ _) ?_).symm
    intro x hx hnx
    rw [Finset.mem_Icc] at hx
    rw [Finset.mem_filter] at hnx
    have hpx := hrange x hx.1 hx.2
    rw [cellCost_padFill costM n m (max n m) hpx.1 hpx.2 hx.1 hx.2]
    unfold fillCell
    rw [if_neg ?_]
    intro hcon
    exact hnx ⟨Finset.mem_Icc.mpr hx, by omega, by omega⟩
  rw [hRHS]
  refine Finset.sum_congr rfl ?_
  intro j hj
  rw [Finset.mem_filter, Finset.mem_Icc] at hj
  have hp1 := hrange j hj.1.1 hj.1.2
  have hcond : 0 < p j ∧ p j ≤ n ∧ j ≤ m := ⟨by omega, hj.2.1, hj.2.2⟩
  have hs := hsur2 j hj.1.1 hj.1.2 hcond
  show resultCellCost costM m (buildAssignment p n m (max n m)) (p j - 1) =
    cellCost (padFill costM n m (max n m)) (max n m) (p j) j
  have hleft : resultCellCost costM m (buildAssignment p n m (max n m)) (p j - 1) =
      costM.getD ((p j - 1) * m + (j - 1)) 0 := by
    unfold resultCellCost
    rw [hs]
    show (if 0 ≤ (j : ℤ) - 1 then
        costM.getD ((p j - 1) * m + ((j : ℤ) - 1).toNat) 0 else 0) =
      costM.getD ((p j - 1) * m + (j - 1)) 0
    have hjz : (0 : ℤ) ≤ (j : ℤ) - 1 := by
      have hc1 : (1 : ℤ) ≤ (j : ℤ) := by exact_mod_cast hj.1.1
      omega
    rw [if_pos hjz]
    have htn : ((j : ℤ) - 1).toNat = j - 1 := by omega
    rw [htn]
  rw [hleft, cellCost_padFill costM n m (max n m) hp1.1 hp1.2 hj.1.1 hj.1.2]
  unfold fillCell
  have hcc : p j - 1 < n ∧ j - 1 < m := by omega
  rw [if_pos hcc]

/-- C1: for every input with `length(cost) = rows*cols` (all model values
finite by construction), the total original cost of the assignment
returned by `hungarian_algorithm` is exactly the minimum achievable
total cost over all perfect matchings of the zero-padded square matrix
of dimension `max rows cols` (stated as `IsLeast`: the value is attained
by some perfect matching and bounds every perfect matching from below). -/
theorem optimal_assignment (costM : List α) (n m : ℕ) (hlen : costM.length = n * m) :
    ∃ r : List ℤ, hungarian_algorithm costM n m = some r ∧
      IsLeast {t : α | ∃ σ : Equiv.Perm (Fin (max n m)),
          t = matchingCost (padFill costM n m (max n m)) (max n m) σ}
        (totalCostOfResult costM m r) := by
  obtain ⟨p, u, v, halg, hinj, himg, hrange, hfeas, htight⟩ :=
    hungarian_algorithm_run costM n m (le_of_eq hlen.symm)
  have htotal := totalCost_eq_matching_sum costM n m p hinj hrange
  refine ⟨buildAssignment p n m (max n m), halg, ?_, ?_⟩
  · -- membership: the matching the solver found is itself a perfect matching
    show ∃ σ : Equiv.Perm (Fin (max n m)),
      totalCostOfResult costM m (buildAssignment p n m (max n m)) =
        matchingCost (padFill costM n m (max n m)) (max n m) σ
    have hprange : ∀ a : Fin (max n m), p (a.val + 1) - 1 < max n m := by
      intro a
      have ha := a.isLt
      have hr2 := hrange (a.val + 1) (by omega) (by omega)
      omega
    have hfinj : Function.Injective
        (fun a : Fin (max n m) =>
          (⟨p (a.val + 1) - 1, hprange a⟩ : Fin (max n m))) := by
      intro a b hab
      have hab2 : p (a.val + 1) - 1 = p (b.val + 1) - 1 := congrArg Fin.val hab
      have ha := a.isLt
      have hb := b.isLt
      have ha1 := (hrange (a.val + 1) (by omega) (by omega)).1
      have hb1 := (hrange (b.val + 1) (by omega) (by omega)).1
      have hpe : p (a.val + 1) = p (b.val + 1) := by omega
      have heq := hinj (Finset.mem_coe.mpr (Finset.mem_Icc.mpr ⟨by omega, by omega⟩))
        (Finset.mem_coe.mpr (Finset.mem_Icc.mpr ⟨by omega, by omega⟩)) hpe
      exact Fin.ext (by omega)
    set e : Equiv.Perm (Fin (max n m)) :=
      Equiv.ofBijective _ (Finite.injective_iff_bijective.mp hfinj) with hedef
    refine ⟨e.symm, ?_⟩
    rw [htotal, matchingCost_eq]
    refine Finset.sum_congr rfl ?_
    intro j hj
    have hj2 := Finset.mem_Icc.mp hj
    rw [permRow_val e.symm j hj2, Equiv.symm_symm]
    have harg : ((e (⟨j - 1, by omega⟩ : Fin (max n m))).val + 1) = p j := by
      have happ : (e (⟨j - 1, by omega⟩ : Fin (max n m))).val = p (j - 1 + 1) - 1 := rfl
      have hj1v : j - 1 + 1 = j := by omega
      rw [hj1v] at happ
      rw [happ]
      have hp1 := (hrange j hj2.1 hj2.2).1
      omega
    rw [harg]
  · -- lower bound: weak duality against any perfect matching
    rintro t ⟨σ, rfl⟩
    rw [htotal, matchingCost_eq,
      dual_matching_value (padFill costM n m (max n m)) (max n m) u v p hinj himg htight]
    exact dual_lower_bound (padFill costM n m (max n m)) (max n m) u v (permRow σ)
      hfeas (permRow_inj σ) (permRow_img σ)

theorem optimal_assignment_witness :
    ([3, 1, 1, 3] : List ℤ).length = 2 * 2 ∧
    ∃ r : List ℤ, hungarian_algorithm ([3, 1, 1, 3] : List ℤ) 2 2 = some r ∧
      IsLeast {t : ℤ | ∃ σ : Equiv.Perm (Fin (max 2 2)),
          t = matchingCost (padFill ([3, 1, 1, 3] : List ℤ) 2 2 (max 2 2)) (max 2 2) σ}
        (totalCostOfResult ([3, 1, 1, 3] : List ℤ) 2 r) :=
  ⟨by decide, optimal_assignment [3, 1, 1, 3] 2 2 (by decide)⟩
